import Mathlib

/-!
Shallow embedding of the clustering module of the py-bussilab repository
(`src/bussilab/clustering.py`): the three strategies `max_clique`, `daura`
and `qt`, together with the QT candidate-growth kernel (`_qt_outer`,
`_qt_inner`).

Modelling conventions:

* matrices are lists of rows of rationals (`Mat`), weight vectors are lists
  of rationals; machine floats of the source are modelled by `ℚ` (the
  algorithms only add, multiply and compare);
* the `np.inf` sentinel used inside the QT kernel is modelled by `⊤` in
  `WithTop ℚ`;
* positional array indexing `a[i]` is modelled by `List.getD` with a default;
  every theorem below only ever indexes in range, where the two agree;
* Python `while` loops whose termination is not syntactically evident are
  modelled with an explicit fuel parameter and return `none` when the fuel
  runs out (`none` therefore means "the source loop is still running");
* `np.argsort` (used by `qt` on the negated degrees) is modelled as a stable
  descending sort, which is what numpy's introsort produces on the small
  arrays appearing in every concrete statement below;
* `numpy` fancy indexing, `np.delete`, `np.where`, `np.argmax`,
  `np.fill_diagonal` and the python expression
  `list(set(range(n)).difference(cluster))` (ascending order for small ints)
  are modelled by the dedicated list functions below;
* `networkx.Graph(adj)` / `networkx.algorithms.clique.find_cliques` are
  third-party collaborators: they are modelled from their documented
  contract (graph on nodes `0..N-1` with an edge where the matrix entry is
  nonzero, raising on a non-square matrix; enumeration of all maximal
  cliques of the current induced subgraph, each exactly once, in an
  unspecified order — here: sublist order).  The `use_networkit=False`
  default branch of `max_clique` is the one embedded.
-/

/-- A matrix: list of rows. -/
abbrev Mat := List (List ℚ)

/-- Rational addition, written through `mkRat` so that it is definitionally
reducible (the kernel-irreducible `Rat.add` behind `+` blocks `decide`);
provably equal to `+` (`qAdd_eq_add` below). -/
def qAdd (a b : ℚ) : ℚ := mkRat (a.num * b.den + b.num * a.den) (a.den * b.den)

/-- Rational multiplication through `mkRat`; provably equal to `*`
(`qMul_eq_mul` below). -/
def qMul (a b : ℚ) : ℚ := mkRat (a.num * b.num) (a.den * b.den)

/-- Sum of a list of rationals through `qAdd`; provably equal to `List.sum`
(`qSum_eq_sum` below). -/
def qSum (l : List ℚ) : ℚ := l.foldr qAdd 0

/-- Maximum on `WithTop ℚ` written as a comparison; provably equal to `max`
(`wtMax_eq_max` below). -/
def wtMax (a b : WithTop ℚ) : WithTop ℚ := if a < b then b else a

/-- `l[i]` for a rational vector, 0 out of range (in-range everywhere below). -/
def getQ (l : List ℚ) (i : ℕ) : ℚ := l.getD i 0

/-- `l[i]` for a `WithTop ℚ` vector, `⊤` out of range. -/
def getWT (l : List (WithTop ℚ)) (i : ℕ) : WithTop ℚ := l.getD i ⊤

/-- Row `i` of a matrix (empty out of range). -/
def getRow (m : Mat) (i : ℕ) : List ℚ := m.getD i []

/-- Matrix entry `m[i][j]` (0 out of range). -/
def ent (m : Mat) (i j : ℕ) : ℚ := getQ (getRow m i) j

/-- `np.delete(xs, ii)`: drop the entries whose position is listed in `ii`. -/
def npDelete (xs : List α) (ii : List ℕ) : List α :=
  (xs.enum.filter (fun p => !(ii.contains p.1))).map Prod.snd

/-- numpy fancy indexing `xs[ii]` (default `d` out of range). -/
def fancy (xs : List α) (d : α) (ii : List ℕ) : List α :=
  ii.map (fun i => xs.getD i d)

/-- `np.delete` on rows then on columns (axis 0 then axis 1). -/
def deleteRowsCols (m : Mat) (ii : List ℕ) : Mat :=
  (npDelete m ii).map (fun r => npDelete r ii)

/-- `distances[np.ix_(idx, idx)]`: keep rows and columns listed in `idx`. -/
def subMatrix (m : Mat) (idx : List ℕ) : Mat :=
  idx.map (fun i => fancy (getRow m i) 0 idx)

/-- `np.fill_diagonal(m, v)`. -/
def fillDiagonal (m : Mat) (v : ℚ) : Mat :=
  m.enum.map (fun p => p.2.set p.1 v)

/-- `np.argmax`: position of the first maximal entry (0 on the empty list,
where the source would raise). -/
def npArgmax (l : List ℚ) : ℕ :=
  match l with
  | [] => 0
  | x :: rest =>
    (rest.enum.foldl (fun st p => if p.2 > st.2 then (p.1 + 1, p.2) else st) (0, x)).1

/-- Stable insertion (descending keys) used to model `np.argsort(-degrees)`. -/
def insertDesc (key : ℕ → ℚ) (i : ℕ) : List ℕ → List ℕ
  | [] => [i]
  | j :: rest => if key j < key i then i :: j :: rest else j :: insertDesc key i rest

/-- `np.argsort(-d)`: positions of `d` sorted by decreasing value, ties kept
in ascending position order (stable). -/
def argsortDesc (d : List ℚ) : List ℕ :=
  (List.range d.length).foldl (fun acc i => insertDesc (getQ d) i acc) []

/-- Python truthiness test `if max_clusters:` followed by
`len(clusters) >= max_clusters` (note `0` is falsy), as in `daura`. -/
def pyTruthyLimit (mc : Option ℕ) (k : ℕ) : Bool :=
  match mc with
  | some limit => decide (limit ≠ 0) && decide (k ≥ limit)
  | none => false

/-- `if max_clusters is not None: if n >= max_clusters:`, as in `qt` and
`max_clique`. -/
def mcReached (mc : Option ℕ) (k : ℕ) : Bool :=
  match mc with
  | some limit => decide (k ≥ limit)
  | none => false

/-- Result of a `bussilab.clustering` calculation (`ClusteringResult`). -/
structure ClusteringResult where
  method : String
  clusters : List (List ℕ)
  weights : List ℚ
deriving DecidableEq

/-- Equality of modelled `max_clique` outcomes (normal result or raised
exception) is decidable. -/
instance : DecidableEq (Except String ClusteringResult) := fun a b =>
  match a, b with
  | .ok x, .ok y =>
    if h : x = y then .isTrue (congrArg Except.ok h)
    else .isFalse (fun hc => h (Except.ok.inj hc))
  | .error x, .error y =>
    if h : x = y then .isTrue (congrArg Except.error h)
    else .isFalse (fun hc => h (Except.error.inj hc))
  | .ok _, .error _ => .isFalse (fun hc => Except.noConfusion hc)
  | .error _, .ok _ => .isFalse (fun hc => Except.noConfusion hc)

/-- The weight of one item as originally supplied (1 each when `weights` is
`None`). -/
def origW (weights : Option (List ℚ)) (x : ℕ) : ℚ :=
  match weights with
  | some w => getQ w x
  | none => 1

/-- Sum of the originally supplied weights of the members of a cluster. -/
def wsum (weights : Option (List ℚ)) (c : List ℕ) : ℚ :=
  qSum (c.map (origW weights))

/-- `m` is square: every row has length `m.length`. -/
def isSquare (m : Mat) : Bool :=
  m.all (fun r => decide (r.length = m.length))

/-- `m` is symmetric on the in-range entries. -/
def isSymm (m : Mat) : Bool :=
  (List.range m.length).all (fun i =>
    (List.range m.length).all (fun j => decide (ent m i j = ent m j i)))

/-- All in-range entries of `m` are 0 or 1 (an adjacency matrix). -/
def isZeroOne (m : Mat) : Bool :=
  (List.range m.length).all (fun i =>
    (List.range m.length).all (fun j => decide (ent m i j = 0 ∨ ent m i j = 1)))

/-- All entries of a weight vector are nonnegative (`None` means unit
weights). -/
def wNonneg (weights : Option (List ℚ)) : Bool :=
  match weights with
  | some w => w.all (fun x => decide (0 ≤ x))
  | none => true

/-! ### daura -/

/-- Working state of the `daura` while-loop. -/
structure DauraState where
  adj : Mat
  weights : Option (List ℚ)
  indexes : List ℕ
  clusters : List (List ℕ)
  ww : List ℚ

/-- `d`: the weighted degree vector, `np.sum(adj*weights[:,np.newaxis],axis=0)`
(resp. `np.sum(adj,axis=0)` without weights); the matrix is square wherever
this is used. -/
def dauraDegrees (adj : Mat) (weights : Option (List ℚ)) : List ℚ :=
  match weights with
  | some w => (List.range adj.length).map (fun j =>
      qSum ((List.range adj.length).map (fun i => qMul (ent adj i j) (getQ w i))))
  | none => (List.range adj.length).map (fun j =>
      qSum ((List.range adj.length).map (fun i => ent adj i j)))

/-- `n = np.argmax(d)`: the leader of the current round. -/
def dauraLeader (s : DauraState) : ℕ :=
  npArgmax (dauraDegrees s.adj s.weights)

/-- `ii = np.where(adj[n] > 0)[0]`: positions clustered in this round. -/
def dauraClusterPos (s : DauraState) : List ℕ :=
  (List.range (getRow s.adj (dauraLeader s)).length).filter
    (fun j => decide (0 < ent s.adj (dauraLeader s) j))

/-- The `while len(indexes)>0` loop of `daura`, with fuel. -/
def dauraLoop (min_size : ℚ) (max_clusters : Option ℕ) :
    ℕ → DauraState → Option ClusteringResult
  | 0, _ => none
  | fuel+1, s =>
    if s.indexes.isEmpty then some ⟨"daura", s.clusters, s.ww⟩
    else
      let d := dauraDegrees s.adj s.weights
      let n := dauraLeader s
      if getQ d n < min_size then some ⟨"daura", s.clusters, s.ww⟩
      else
        let ii := dauraClusterPos s
        let clusters' := s.clusters ++ [fancy s.indexes 0 ii]
        let ww' := s.ww ++ [getQ d n]
        if pyTruthyLimit max_clusters clusters'.length then some ⟨"daura", clusters', ww'⟩
        else dauraLoop min_size max_clusters fuel
          ⟨deleteRowsCols s.adj ii, (s.weights).map (fun w => npDelete w ii),
           npDelete s.indexes ii, clusters', ww'⟩

/-- `clustering.daura` (the working copies of the source become plain values
here). -/
def daura (adj : Mat) (weights : Option (List ℚ)) (min_size : ℚ)
    (max_clusters : Option ℕ) (fuel : ℕ) : Option ClusteringResult :=
  dauraLoop min_size max_clusters fuel ⟨adj, weights, List.range adj.length, [], []⟩

/-! ### qt -/

/-- `_qt_outer`: candidates of a seed, all items within `cutoff` of `next`,
the seed itself excluded (the two python ranges below and above `next`). -/
def _qt_outer (distances : Mat) (next : ℕ) (cutoff : ℚ) : List ℕ :=
  (List.range next).filter (fun i => decide (ent distances next i < cutoff)) ++
  (List.range' (next+1) (distances.length - (next+1))).filter
    (fun i => decide (ent distances next i < cutoff))

/-- Result of one `_qt_inner` call: the returned pair plus the (in python:
in-place updated) `dist_from_cluster` array. -/
structure InnerRes where
  next : Int
  minval : WithTop ℚ
  dfc : List (WithTop ℚ)
deriving DecidableEq

/-- The selection loop of `_qt_inner` (source lines 202-211): starting from
candidate position 0, scan positions `1..N-1` and keep the position with the
smallest distance-from-cluster, ties broken by larger weight. -/
def qtInnerSel (dfc : List (WithTop ℚ)) (candidates : List ℕ) (weights : List ℚ) :
    ℕ × WithTop ℚ × ℚ :=
  (List.range' 1 (dfc.length - 1)).foldl
    (fun (st : ℕ × WithTop ℚ × ℚ) i =>
      let val := getWT dfc i
      if val < st.2.1 ∨ (val = st.2.1 ∧ getQ weights (candidates.getD i 0) > st.2.2)
      then (i, val, getQ weights (candidates.getD i 0)) else st)
    (0, getWT dfc 0, getQ weights (candidates.getD 0 0))

/-- The update loop of `_qt_inner` (source lines 215-218): raise every
position's distance-from-cluster to its distance from the new member `next`
when that is larger. -/
def qtInnerUpdate (distances : Mat) (dfc : List (WithTop ℚ)) (candidates : List ℕ)
    (next : ℕ) : List (WithTop ℚ) :=
  (List.range dfc.length).map (fun i =>
    let val : WithTop ℚ := ((ent distances next (candidates.getD i 0) : ℚ) : WithTop ℚ)
    if getWT dfc i < val then val else getWT dfc i)

/-- `_qt_inner`: pick the remaining candidate with minimal distance from the
growing cluster (ties: larger weight), stop when that minimum exceeds
`cutoff`, otherwise raise every remaining candidate's distance to the new
member and mark the accepted one with `⊤` (`np.inf`). -/
def _qt_inner (distances : Mat) (dist_from_cluster : List (WithTop ℚ))
    (candidates : List ℕ) (cutoff : ℚ) (weights : List ℚ) : InnerRes :=
  if dist_from_cluster.length < 1 then ⟨-1, ⊤, dist_from_cluster⟩
  else
    let sel := qtInnerSel dist_from_cluster candidates weights
    if (cutoff : WithTop ℚ) < sel.2.1 then ⟨-1, sel.2.1, dist_from_cluster⟩
    else
      let next := candidates.getD sel.1 0
      ⟨(next : Int), sel.2.1,
       (qtInnerUpdate distances dist_from_cluster candidates next).set sel.1 ⊤⟩

/-- The `while True` growth loop of one candidate cluster inside `qt`
(source lines 316-322), with fuel; returns the grown `precluster`, its
realized diameter and the final `dist_from_cluster`. -/
def qtGrowFuel (distances : Mat) (cutoff : ℚ) (weights : List ℚ) (candidates : List ℕ) :
    ℕ → List (WithTop ℚ) → List ℕ → WithTop ℚ → List ℕ × WithTop ℚ × List (WithTop ℚ)
  | 0, dfc, precluster, diam => (precluster, diam, dfc)
  | fuel+1, dfc, precluster, diam =>
    let r := _qt_inner distances dfc candidates cutoff weights
    if r.next < 0 then (precluster, diam, dfc)
    else qtGrowFuel distances cutoff weights candidates fuel r.dfc
      (precluster ++ [r.next.toNat]) (if diam < r.minval then r.minval else diam)

/-- Growing one candidate cluster from a seed: `_qt_outer`, the initial
`dist_from_cluster = distances[next_][candidates]`, then the growth loop.
The fuel `candidates.length + 1` is enough: every accepted member turns one
finite entry of `dist_from_cluster` into `⊤`. -/
def qtGrow (distances : Mat) (cutoff : ℚ) (weights : List ℚ) (seed : ℕ) :
    List ℕ × WithTop ℚ × List (WithTop ℚ) :=
  let candidates := _qt_outer distances seed cutoff
  let dfc := candidates.map (fun c => ((ent distances seed c : ℚ) : WithTop ℚ))
  qtGrowFuel distances cutoff weights candidates (dfc.length + 1) dfc [seed] 0

/-- Best candidate cluster tracked during one round's seed scan. -/
structure BestSt where
  cluster_size : ℚ
  diameter : WithTop ℚ
  cluster : List ℕ
deriving DecidableEq

/-- Weighted degrees `np.sum((distances < cutoff)*weights[:,np.newaxis],axis=0)`. -/
def qtDegrees (distances : Mat) (cutoff : ℚ) (weights : List ℚ) : List ℚ :=
  (List.range distances.length).map (fun j =>
    qSum ((List.range distances.length).map (fun i =>
      if ent distances i j < cutoff then getQ weights i else 0)))

/-- The seed scan of one `qt` round over the sorted seeds.  With
`abort = true` this is the source's scan (which breaks as soon as the next
seed's degree is below the best cluster weight so far); with `abort = false`
it is the variant that grows a candidate cluster from every seed. -/
def qtScan (abort : Bool) (distances : Mat) (cutoff : ℚ) (weights : List ℚ)
    (degrees : List ℚ) : List ℕ → BestSt → BestSt
  | [], best => best
  | seed :: rest, best =>
    if abort = true ∧ getQ degrees seed < best.cluster_size then best
    else
      let g := qtGrow distances cutoff weights seed
      let new_cluster_size := qSum (g.1.map (fun p => getQ weights p))
      let best' :=
        if new_cluster_size > best.cluster_size ∨
           (new_cluster_size = best.cluster_size ∧ g.2.1 < best.diameter)
        then ⟨new_cluster_size, g.2.1, g.1⟩ else best
      qtScan abort distances cutoff weights degrees rest best'

/-- Working state of the `qt` while-loop. -/
structure QtState where
  distances : Mat
  weights : List ℚ
  indexes : List ℕ
  clusters : List (List ℕ)
  ww : List ℚ
  ncluster : ℕ

/-- The `while len(weights)>0` loop of `qt`, with fuel. -/
def qtLoop (abort : Bool) (cutoff min_size : ℚ) (max_clusters : Option ℕ) :
    ℕ → QtState → Option ClusteringResult
  | 0, _ => none
  | fuel+1, s =>
    if s.weights.isEmpty then some ⟨"qt", s.clusters, s.ww⟩
    else
      let degrees := qtDegrees s.distances cutoff s.weights
      let sorted := argsortDesc degrees
      let best := qtScan abort s.distances cutoff s.weights degrees sorted ⟨0, 0, []⟩
      if best.cluster_size < min_size then some ⟨"qt", s.clusters, s.ww⟩
      else
        let clusters' := s.clusters ++ [fancy s.indexes 0 best.cluster]
        let ww' := s.ww ++ [best.cluster_size]
        if mcReached max_clusters (s.ncluster + 1) then some ⟨"qt", clusters', ww'⟩
        else
          let idx := (List.range s.distances.length).filter
            (fun i => !(best.cluster.contains i))
          qtLoop abort cutoff min_size max_clusters fuel
            ⟨subMatrix s.distances idx, fancy s.weights 0 idx, fancy s.indexes 0 idx,
             clusters', ww', s.ncluster + 1⟩

/-- `clustering.qt`, parameterized by whether the seed scan aborts early
(`abort = true` is the source). -/
def qtWith (abort : Bool) (distances : Mat) (cutoff : ℚ) (weights : Option (List ℚ))
    (min_size : ℚ) (max_clusters : Option ℕ) (fuel : ℕ) : Option ClusteringResult :=
  let N := distances.length
  let w := match weights with
    | none => List.replicate N 1
    | some w => w
  qtLoop abort cutoff min_size max_clusters fuel
    ⟨fillDiagonal distances 0, w, List.range N, [], [], 0⟩

/-- `clustering.qt`, the source. -/
def qt (distances : Mat) (cutoff : ℚ) (weights : Option (List ℚ)) (min_size : ℚ)
    (max_clusters : Option ℕ) (fuel : ℕ) : Option ClusteringResult :=
  qtWith true distances cutoff weights min_size max_clusters fuel

/-- The variant of `qt` that grows a candidate cluster from every eligible
seed in every round (no early abort of the seed scan). -/
def qtEverySeed (distances : Mat) (cutoff : ℚ) (weights : Option (List ℚ)) (min_size : ℚ)
    (max_clusters : Option ℕ) (fuel : ℕ) : Option ClusteringResult :=
  qtWith false distances cutoff weights min_size max_clusters fuel

/-- Maximum distance from item `c` to the members `ms` of a growing cluster
(`⊤` for no member; the lists used below are never empty). -/
def clusterDist (distances : Mat) (c : ℕ) : List ℕ → WithTop ℚ
  | [] => ⊤
  | [m] => ((ent distances m c : ℚ) : WithTop ℚ)
  | m :: ms => wtMax ((ent distances m c : ℚ) : WithTop ℚ) (clusterDist distances c ms)

/-! ### max_clique -/

/-- `c` is a clique of the graph of `adj` (an edge wherever the entry is
nonzero; the diagonal is irrelevant). -/
def isClique (adj : Mat) (c : List ℕ) : Bool :=
  c.all (fun i => c.all (fun j => decide (i = j ∨ ent adj i j ≠ 0)))

/-- `c` is a maximal clique of the subgraph induced by `nodes`. -/
def isMaximalClique (adj : Mat) (nodes : List ℕ) (c : List ℕ) : Bool :=
  isClique adj c && nodes.all (fun v => decide (v ∈ c) || !isClique adj (v :: c))

/-- Models `networkx.algorithms.clique.find_cliques` on the subgraph of the
graph of `adj` induced by `nodes`: all maximal cliques, each exactly once,
in an unspecified order (here: sublist order). -/
def find_cliques (adj : Mat) (nodes : List ℕ) : List (List ℕ) :=
  nodes.sublists.filter (isMaximalClique adj nodes)

/-- The weight of a clique: `np.sum(weights[i])`, or `len(i)` without
weights. -/
def cliqueW (weights : Option (List ℚ)) (c : List ℕ) : ℚ :=
  match weights with
  | some wv => qSum (c.map (fun i => getQ wv i))
  | none => (c.length : ℚ)

/-- The `while graph.number_of_nodes()>0` loop of `max_clique`
(`use_networkit=False` branch), with fuel.  `some (.error _)` models a
raised python exception (the `maxi` name is unbound when no clique has
weight above 0 while `min_size` does not stop the round). -/
def maxCliqueLoop (adj : Mat) (weights : Option (List ℚ)) (min_size : ℚ)
    (max_clusters : Option ℕ) :
    ℕ → List ℕ → List (List ℕ) → List ℚ → Option (Except String ClusteringResult)
  | 0, _, _, _ => none
  | fuel+1, nodes, cliques, ww =>
    if nodes.isEmpty then some (.ok ⟨"max_clique", cliques, ww⟩)
    else
      let best := (find_cliques adj nodes).foldl
        (fun (st : ℚ × Option (List ℕ)) c =>
          if cliqueW weights c > st.1 then (cliqueW weights c, some c) else st)
        (0, none)
      if best.1 < min_size then some (.ok ⟨"max_clique", cliques, ww⟩)
      else
        match best.2 with
        | none => some (.error "UnboundLocalError: maxi")
        | some maxi =>
          let cliques' := cliques ++ [maxi]
          let ww' := ww ++ [best.1]
          if mcReached max_clusters cliques'.length then
            some (.ok ⟨"max_clique", cliques', ww'⟩)
          else
            maxCliqueLoop adj weights min_size max_clusters fuel
              (nodes.filter (fun v => !(maxi.contains v))) cliques' ww'

/-- `clustering.max_clique` (`use_networkit=False`): `networkx.Graph(adj)`
raises on a non-square matrix before any clustering work, modelled by the
`.error` branch; otherwise the greedy maximal-clique extraction runs on the
graph over nodes `0..N-1`. -/
def max_clique (adj : Mat) (weights : Option (List ℚ)) (min_size : ℚ)
    (max_clusters : Option ℕ) (fuel : ℕ) : Option (Except String ClusteringResult) :=
  if isSquare adj then
    maxCliqueLoop adj weights min_size max_clusters fuel (List.range adj.length) [] []
  else some (.error "networkx: adjacency matrix not square")

/-! ### Concrete inputs used by the claims -/

/-- Distance matrix of the four points `[0.0, 0.5, 1.0, 1.2]` on a line. -/
def c5dist : Mat :=
  [[0, mkRat 1 2, 1, mkRat 6 5],
   [mkRat 1 2, 0, mkRat 1 2, mkRat 7 10],
   [1, mkRat 1 2, 0, mkRat 1 5],
   [mkRat 6 5, mkRat 7 10, mkRat 1 5, 0]]

/-- A 3-item distance matrix on which the growth kernel raises a remaining
candidate's distance-to-cluster. -/
def c1dist : Mat :=
  [[0, mkRat 1 10, mkRat 1 5],
   [mkRat 1 10, 0, mkRat 1 2],
   [mkRat 1 5, mkRat 1 2, 0]]

/-! ### Bridging lemmas for the reducible arithmetic -/

/-- `qAdd` is rational addition. -/
theorem qAdd_eq_add (a b : ℚ) : qAdd a b = a + b := by
  rw [qAdd, Rat.add_def']

/-- `qMul` is rational multiplication. -/
theorem qMul_eq_mul (a b : ℚ) : qMul a b = a * b := by
  rw [qMul, Rat.mul_def, Rat.normalize_eq_mkRat]



/-- `qSum` is `List.sum`. -/
theorem qSum_eq_sum (l : List ℚ) : qSum l = l.sum := by
  induction l with
  | nil => rfl
  | cons x xs ih => rw [qSum, List.foldr_cons, qAdd_eq_add, List.sum_cons, ← qSum, ih]

/-- `wtMax` is `max`. -/
theorem wtMax_eq_max (a b : WithTop ℚ) : wtMax a b = max a b := by
  rw [wtMax]
  rcases lt_or_ge a b with h | h
  · rw [if_pos h, max_eq_right h.le]
  · rw [if_neg (not_lt.mpr h), max_eq_left h]

/-! ### Concrete claims -/

/-- C5 (confirmed): on the distance matrix of the points
`[0.0, 0.5, 1.0, 1.2]` with unit weights and `cutoff = 0.6`, `qt` returns
exactly two clusters, first `{2,3}` then `{0,1}`, both of weight 2; the
candidate grown from seed 2 is `[2,3]` with realized diameter `0.2` and the
one grown from seed 1 is `[1,0]` with realized diameter `0.5`, and
`0.2 < 0.5` is the equal-weight diameter tie-break that emits `{2,3}`
first. -/
theorem claim_C5 :
    qt c5dist (mkRat 3 5) none 0 none 10 = some ⟨"qt", [[2, 3], [0, 1]], [2, 2]⟩ ∧
    (qtGrow (fillDiagonal c5dist 0) (mkRat 3 5) (List.replicate 4 1) 2).1 = [2, 3] ∧
    (qtGrow (fillDiagonal c5dist 0) (mkRat 3 5) (List.replicate 4 1) 2).2.1 =
      ((mkRat 1 5 : ℚ) : WithTop ℚ) ∧
    (qtGrow (fillDiagonal c5dist 0) (mkRat 3 5) (List.replicate 4 1) 1).1 = [1, 0] ∧
    (qtGrow (fillDiagonal c5dist 0) (mkRat 3 5) (List.replicate 4 1) 1).2.1 =
      ((mkRat 1 2 : ℚ) : WithTop ℚ) ∧
    ((mkRat 1 5 : ℚ) : WithTop ℚ) < ((mkRat 1 2 : ℚ) : WithTop ℚ) ∧
    (mkRat 3 5 : ℚ) = 3/5 ∧ (mkRat 1 5 : ℚ) = 1/5 ∧ (mkRat 1 2 : ℚ) = 1/2 := by
  refine ⟨by decide, by decide, by decide, by decide, by decide, by decide, ?_, ?_, ?_⟩ <;>
    norm_num [Rat.mkRat_eq_div]

/-- C1 counterexample: with seed 0 of `c1dist`, candidates `[1, 2]` and their
seed distances `[1/10, 1/5]`, the kernel accepts item 1 and then sets the
remaining candidate 2's distance-to-cluster to `distance(1,2) = 1/2`, which
is not `min(1/5, 1/2) = 1/5` as the claim states (the update is a `max`, not
a `min`). -/
theorem claim_C1_counterexample :
    _qt_inner c1dist [((mkRat 1 10 : ℚ) : WithTop ℚ), ((mkRat 1 5 : ℚ) : WithTop ℚ)]
        [1, 2] 1 [1, 1, 1] =
      ⟨1, ((mkRat 1 10 : ℚ) : WithTop ℚ), [⊤, ((mkRat 1 2 : ℚ) : WithTop ℚ)]⟩ ∧
    min (mkRat 1 5 : ℚ) (mkRat 1 2 : ℚ) = mkRat 1 5 ∧
    ((mkRat 1 2 : ℚ) : WithTop ℚ) ≠ ((mkRat 1 5 : ℚ) : WithTop ℚ) := by
  refine ⟨by decide, min_eq_left (by norm_num [Rat.mkRat_eq_div]), by decide⟩

/-- C2 counterexample: `max_clique` on the square 2×2 matrix with a weights
vector of length 3 completes a full clustering run and returns a normal
result (the extra weight entry is silently ignored): no error is reported at
call time for the mismatched weight length. -/
theorem claim_C2_counterexample :
    max_clique [[0, 1], [1, 0]] (some [1, 1, 5]) 0 none 5 =
      some (.ok ⟨"max_clique", [[0, 1]], [2]⟩) := by decide

/-- C2 as amended: a non-square matrix is rejected at call time (by the
graph construction), but a weights vector longer than the matrix dimension
is silently accepted, the clustering runs to completion and the extra
entries are ignored: no weight-length validation exists. -/
theorem claim_C2 :
    max_clique [[0, 1], [1, 0]] (some [1, 1, 5]) 0 none 5 =
      some (.ok ⟨"max_clique", [[0, 1]], [2]⟩) ∧
    max_clique [[0, 1]] (some [1]) 0 none 5 =
      some (.error "networkx: adjacency matrix not square") := by
  refine ⟨by decide, by decide⟩

/-- C3 counterexample: `daura` with `max_clusters = 0` returns the full
unconstrained clustering (two clusters), not an empty cluster list: python's
`if max_clusters:` treats 0 as false. -/
theorem claim_C3_counterexample :
    daura [[1, 0], [0, 1]] none 0 (some 0) 5 =
      some ⟨"daura", [[0], [1]], [1, 1]⟩ ∧
    ([[0], [1]] : List (List ℕ)).length ≠ 0 := by
  refine ⟨by decide, by decide⟩

/-- C8 counterexample: with `cutoff = 0` (degenerate but within the data
model: symmetric nonnegative distances, nonnegative weights), all degrees
are 0, and the early abort of the seed scan skips the heavier singleton
seed: `qt` emits `{0}` then `{1}` while the grow-every-seed variant emits
`{1}` then `{0}` with different weights — different `ClusteringResult`s. -/
theorem claim_C8_counterexample :
    qt [[0, 1], [1, 0]] 0 (some [1, 5]) 0 none 5 =
      some ⟨"qt", [[0], [1]], [1, 5]⟩ ∧
    qtEverySeed [[0, 1], [1, 0]] 0 (some [1, 5]) 0 none 5 =
      some ⟨"qt", [[1], [0]], [5, 1]⟩ ∧
    (⟨"qt", [[0], [1]], [1, 5]⟩ : ClusteringResult) ≠ ⟨"qt", [[1], [0]], [5, 1]⟩ := by
  refine ⟨by decide, by decide, by decide⟩

/-- Helper for C4: on the 1×1 all-zero adjacency matrix with `min_size = 0`
and no cluster limit, one `daura` round appends an empty cluster (the leader
row has no positive entry), removes nothing, and hands the loop an identical
working state; by induction the loop never returns, whatever the fuel. -/
theorem dauraLoop_allzero (fuel : ℕ) : ∀ cl ww,
    dauraLoop 0 none fuel ⟨[[0]], none, [0], cl, ww⟩ = none := by
  induction fuel with
  | zero => intro cl ww; rfl
  | succ fuel ih =>
    intro cl ww
    have hstep : dauraLoop 0 none (fuel+1) ⟨[[0]], none, [0], cl, ww⟩ =
        dauraLoop 0 none fuel ⟨[[0]], none, [0], cl ++ [[]], ww ++ [0]⟩ := by
      simp only [dauraLoop]; rfl
    rw [hstep, ih]

/-- C4 (code bug): `daura` on the square, symmetric all-zero 1×1 adjacency
matrix with the default `min_size = 0` and `max_clusters = None` does not
terminate: the round's cluster `np.where(adj[0]>0)[0]` is empty, so nothing
is deleted and `while len(indexes)>0` runs forever; in the fuel-indexed
embedding no amount of fuel produces a result. -/
theorem claim_C4 : ∀ fuel, daura [[0]] none 0 none fuel = none := by
  intro fuel
  have h0 : daura [[0]] none 0 none fuel =
      dauraLoop 0 none fuel ⟨[[0]], none, [0], [], []⟩ := rfl
  rw [h0, dauraLoop_allzero]

/-! ### List toolkit lemmas -/

/-- In-range `getD` is `getElem`. -/
theorem getD_eq_getElem {α : Type _} (l : List α) (d : α) {i : ℕ} (h : i < l.length) :
    l.getD i d = l[i] := by
  rw [List.getD_eq_getElem?_getD, List.getElem?_eq_getElem h]; rfl

/-- `np.argmax` of a nonempty vector is in range. -/
theorem npArgmax_lt_length (l : List ℚ) (h : l ≠ []) : npArgmax l < l.length := by
  match l, h with
  | x :: rest, _ =>
    show (rest.enum.foldl (fun st p => if p.2 > st.2 then (p.1 + 1, p.2) else st) (0, x)).1 <
      (x :: rest).length
    refine @List.foldlRecOn (ℕ × ℚ) (ℕ × ℚ) (fun st => st.1 < (x :: rest).length) rest.enum
      (fun st p => if p.2 > st.2 then (p.1 + 1, p.2) else st) (0, x)
      (Nat.succ_pos rest.length) ?_
    intro b hb p hp
    by_cases hc : p.2 > b.2
    · have hlt : p.1 < rest.length := by
        have := List.mem_enum_iff_getElem?.1 hp
        exact (List.getElem?_eq_some.1 this).1
      simpa [hc] using Nat.succ_lt_succ hlt
    · simpa [hc] using hb

/-- Membership in a fancy-indexed list. -/
theorem mem_fancy {α : Type _} {xs : List α} {d : α} {ii : List ℕ} {x : α} :
    x ∈ fancy xs d ii ↔ ∃ i ∈ ii, xs.getD i d = x := by
  simp [fancy]

/-- An entry whose position is not deleted survives `np.delete`. -/
theorem getD_mem_npDelete {α : Type _} {xs : List α} {ii : List ℕ} {p : ℕ} (d : α)
    (hp : p < xs.length) (hni : p ∉ ii) : xs.getD p d ∈ npDelete xs ii := by
  rw [npDelete]
  refine List.mem_map.2 ⟨(p, xs.getD p d), List.mem_filter.2 ⟨?_, ?_⟩, rfl⟩
  · exact List.mem_enum_iff_getElem?.2
      (by rw [getD_eq_getElem xs d hp]; exact List.getElem?_eq_getElem hp)
  · simp [hni]

/-- Rows of a square matrix have the matrix's length. -/
theorem isSquare_row_length {m : Mat} (hsq : isSquare m = true) {i : ℕ}
    (hi : i < m.length) : (getRow m i).length = m.length := by
  have hmem : m[i] ∈ m := List.getElem_mem hi
  have := (List.all_eq_true.1 hsq) _ hmem
  rw [getRow, getD_eq_getElem m [] hi]
  exact decide_eq_true_iff.1 this

/-- Unfolding of the positions clustered in a `daura` round. -/
theorem mem_dauraClusterPos {s : DauraState} {j : ℕ} :
    j ∈ dauraClusterPos s ↔
      j < (getRow s.adj (dauraLeader s)).length ∧ 0 < ent s.adj (dauraLeader s) j := by
  simp [dauraClusterPos, List.mem_filter, List.mem_range]

/-- The degree vector has one entry per matrix row. -/
theorem dauraDegrees_length (adj : Mat) (w : Option (List ℚ)) :
    (dauraDegrees adj w).length = adj.length := by
  cases w <;> simp [dauraDegrees]

/-- C10 (confirmed): in a `daura` round that emits a cluster (leader degree
not below `min_size`, cluster limit not reached), the loop recurses on the
state whose emitted cluster is the fancy-indexed list of the positions `j`
with `adj[leader][j] > 0`; that cluster's members are exactly the current
indices at such positions; and when the leader's diagonal entry is 0 the
leader's original index is not a member of the cluster it seeds and stays in
the eligible index list for later rounds. -/
theorem claim_C10 (s : DauraState) (min_size : ℚ) (mc : Option ℕ) (fuel : ℕ)
    (hne : s.indexes ≠ []) (hnd : s.indexes.Nodup) (hsq : isSquare s.adj = true)
    (hlen : s.indexes.length = s.adj.length)
    (hms : ¬ getQ (dauraDegrees s.adj s.weights) (dauraLeader s) < min_size)
    (hmc : pyTruthyLimit mc (s.clusters.length + 1) = false) :
    (dauraLoop min_size mc (fuel+1) s = dauraLoop min_size mc fuel
      ⟨deleteRowsCols s.adj (dauraClusterPos s),
       (s.weights).map (fun w => npDelete w (dauraClusterPos s)),
       npDelete s.indexes (dauraClusterPos s),
       s.clusters ++ [fancy s.indexes 0 (dauraClusterPos s)],
       s.ww ++ [getQ (dauraDegrees s.adj s.weights) (dauraLeader s)]⟩) ∧
    (∀ x, x ∈ fancy s.indexes 0 (dauraClusterPos s) ↔
      ∃ j, j < s.adj.length ∧ 0 < ent s.adj (dauraLeader s) j ∧ s.indexes.getD j 0 = x) ∧
    (ent s.adj (dauraLeader s) (dauraLeader s) = 0 →
      s.indexes.getD (dauraLeader s) 0 ∉ fancy s.indexes 0 (dauraClusterPos s) ∧
      s.indexes.getD (dauraLeader s) 0 ∈ npDelete s.indexes (dauraClusterPos s)) := by
  have hN : 0 < s.adj.length := hlen ▸ List.length_pos.2 hne
  have hn_lt : dauraLeader s < s.adj.length := by
    have hd : (dauraDegrees s.adj s.weights) ≠ [] := by
      intro hnil
      rw [← dauraDegrees_length s.adj s.weights, hnil] at hN
      exact Nat.lt_irrefl 0 hN
    have := npArgmax_lt_length _ hd
    rwa [dauraDegrees_length] at this
  have hrow : (getRow s.adj (dauraLeader s)).length = s.adj.length :=
    isSquare_row_length hsq hn_lt
  have hempty : s.indexes.isEmpty = false := by
    rcases h : s.indexes.isEmpty with _ | _
    · rfl
    · exact absurd (List.isEmpty_iff.1 h) hne
  refine ⟨?_, ?_, ?_⟩
  · simp only [dauraLoop, hempty, Bool.false_eq_true, if_false, hms,
      List.length_append, List.length_cons, List.length_nil, Nat.zero_add, hmc]
  · intro x
    rw [mem_fancy]
    constructor
    · rintro ⟨j, hj, rfl⟩
      rcases mem_dauraClusterPos.1 hj with ⟨hjlt, hjpos⟩
      exact ⟨j, by rwa [hrow] at hjlt, hjpos, rfl⟩
    · rintro ⟨j, hjlt, hjpos, rfl⟩
      exact ⟨j, mem_dauraClusterPos.2 ⟨by rwa [hrow], hjpos⟩, rfl⟩
  · intro hdiag
    have hnotin : dauraLeader s ∉ dauraClusterPos s := by
      intro hmem
      rcases mem_dauraClusterPos.1 hmem with ⟨-, hpos⟩
      rw [hdiag] at hpos
      exact lt_irrefl 0 hpos
    have hnlt : dauraLeader s < s.indexes.length := by rw [hlen]; exact hn_lt
    constructor
    · intro hmem
      rcases mem_fancy.1 hmem with ⟨j, hj, heq⟩
      rcases mem_dauraClusterPos.1 hj with ⟨hjlt, -⟩
      have hjlt' : j < s.indexes.length := by rw [hlen]; rwa [hrow] at hjlt
      rw [getD_eq_getElem _ _ hjlt', getD_eq_getElem _ _ hnlt] at heq
      have hfin : (⟨j, hjlt'⟩ : Fin s.indexes.length) = ⟨dauraLeader s, hnlt⟩ := by
        apply (hnd.get_inj_iff).1
        simpa [List.get_eq_getElem] using heq
      have hjn : j = dauraLeader s := by
        have := congrArg Fin.val hfin
        simpa using this
      exact hnotin (hjn ▸ hj)
    · exact getD_mem_npDelete 0 hnlt hnotin

/-- Witness for C10 at a concrete round: adjacency `[[0,1],[1,0]]` (zero
diagonal), unit weights; the leader is item 0, the emitted cluster is `[1]`,
the leader is not in it and remains eligible. -/
theorem claim_C10_witness :
    (([0, 1] : List ℕ)).Nodup ∧
    ((0 : ℕ) ∉ fancy [0, 1] 0 (dauraClusterPos ⟨[[0, 1], [1, 0]], none, [0, 1], [], []⟩) ∧
     (0 : ℕ) ∈ npDelete [0, 1] (dauraClusterPos ⟨[[0, 1], [1, 0]], none, [0, 1], [], []⟩)) := by
  refine ⟨by decide, ?_⟩
  have h := claim_C10 ⟨[[0, 1], [1, 0]], none, [0, 1], [], []⟩ 0 none 3
    (by decide) (by decide) (by decide) (by decide) (by decide) (by decide)
  exact h.2.2 (by decide)

/-! ### QT kernel lemmas -/

/-- The selection loop returns an in-range position holding the returned
minimum. -/
theorem qtInnerSel_spec (dfc : List (WithTop ℚ)) (cand : List ℕ) (w : List ℚ)
    (h : 1 ≤ dfc.length) :
    (qtInnerSel dfc cand w).1 < dfc.length ∧
      getWT dfc (qtInnerSel dfc cand w).1 = (qtInnerSel dfc cand w).2.1 := by
  rw [qtInnerSel]
  refine @List.foldlRecOn (ℕ × WithTop ℚ × ℚ) ℕ
    (fun st => st.1 < dfc.length ∧ getWT dfc st.1 = st.2.1)
    (List.range' 1 (dfc.length - 1)) _
    (0, getWT dfc 0, getQ w (cand.getD 0 0)) ⟨h, rfl⟩ ?_
  intro st hst i hi
  dsimp only
  by_cases hc : getWT dfc i < st.2.1 ∨
      (getWT dfc i = st.2.1 ∧ getQ w (cand.getD i 0) > st.2.2)
  · rw [if_pos hc]
    refine ⟨?_, rfl⟩
    have := (List.mem_range'_1.1 hi).2
    omega
  · rw [if_neg hc]
    exact hst

/-- Length of the update loop's output. -/
theorem qtInnerUpdate_length (D : Mat) (dfc : List (WithTop ℚ)) (cand : List ℕ)
    (nx : ℕ) : (qtInnerUpdate D dfc cand nx).length = dfc.length := by
  simp [qtInnerUpdate]

/-- Entry `i` of the update loop's output: the maximum of the old
distance-to-cluster and the distance to the new member. -/
theorem qtInnerUpdate_getD (D : Mat) (dfc : List (WithTop ℚ)) (cand : List ℕ)
    (nx : ℕ) {i : ℕ} (hi : i < dfc.length) :
    getWT (qtInnerUpdate D dfc cand nx) i =
      max (getWT dfc i) ((ent D nx (cand.getD i 0) : ℚ) : WithTop ℚ) := by
  have hi' : i < (qtInnerUpdate D dfc cand nx).length := by
    rwa [qtInnerUpdate_length]
  rw [getWT, getD_eq_getElem _ _ hi']
  simp only [qtInnerUpdate, List.getElem_map, List.getElem_range]
  exact wtMax_eq_max (getWT dfc i) _

/-- One accepting `_qt_inner` step: the accepted candidate is the position
holding the returned minimum; it is marked `⊤` in the updated array, and
every other position's distance-to-cluster becomes the maximum of its
current value and its distance to the new member. -/
theorem qt_inner_step (D : Mat) (dfc : List (WithTop ℚ)) (cand : List ℕ)
    (cutoff : ℚ) (w : List ℚ)
    (hnext : 0 ≤ (_qt_inner D dfc cand cutoff w).next) :
    ∃ k, k < dfc.length ∧
      getWT dfc k = (_qt_inner D dfc cand cutoff w).minval ∧
      cand.getD k 0 = (_qt_inner D dfc cand cutoff w).next.toNat ∧
      (_qt_inner D dfc cand cutoff w).dfc.length = dfc.length ∧
      getWT (_qt_inner D dfc cand cutoff w).dfc k = ⊤ ∧
      (∀ i, i < dfc.length → i ≠ k →
        getWT (_qt_inner D dfc cand cutoff w).dfc i =
          max (getWT dfc i)
            ((ent D (_qt_inner D dfc cand cutoff w).next.toNat (cand.getD i 0) : ℚ) :
              WithTop ℚ)) ∧
      (_qt_inner D dfc cand cutoff w).minval ≤ ((cutoff : ℚ) : WithTop ℚ) := by
  by_cases h1 : dfc.length < 1
  · rw [_qt_inner, if_pos h1] at hnext
    simp at hnext
  · have hlen : 1 ≤ dfc.length := Nat.not_lt.1 h1
    by_cases h2 : (cutoff : WithTop ℚ) < (qtInnerSel dfc cand w).2.1
    · have he : _qt_inner D dfc cand cutoff w =
          ⟨-1, (qtInnerSel dfc cand w).2.1, dfc⟩ := by
        rw [_qt_inner, if_neg h1]
        dsimp only
        rw [if_pos h2]
      rw [he] at hnext
      simp at hnext
    · have he : _qt_inner D dfc cand cutoff w =
          ⟨((cand.getD (qtInnerSel dfc cand w).1 0 : ℕ) : ℤ),
           (qtInnerSel dfc cand w).2.1,
           (qtInnerUpdate D dfc cand (cand.getD (qtInnerSel dfc cand w).1 0)).set
             (qtInnerSel dfc cand w).1 ⊤⟩ := by
        rw [_qt_inner, if_neg h1]
        dsimp only
        rw [if_neg h2]
      obtain ⟨hklt, hkval⟩ := qtInnerSel_spec dfc cand w hlen
      refine ⟨(qtInnerSel dfc cand w).1, hklt, ?_, ?_, ?_, ?_, ?_, ?_⟩
      · rw [he]
        exact hkval
      · rw [he]
        exact (Int.toNat_natCast _).symm
      · rw [he]
        simp [List.length_set, qtInnerUpdate_length]
      · rw [he]
        have hk' : (qtInnerSel dfc cand w).1 <
            ((qtInnerUpdate D dfc cand
              (cand.getD (qtInnerSel dfc cand w).1 0)).set
                (qtInnerSel dfc cand w).1 ⊤).length := by
          simpa [List.length_set, qtInnerUpdate_length] using hklt
        rw [getWT, getD_eq_getElem _ _ hk']
        exact List.getElem_set_self _
      · intro i hi hik
        rw [he]
        have hi' : i < ((qtInnerUpdate D dfc cand
            (cand.getD (qtInnerSel dfc cand w).1 0)).set
              (qtInnerSel dfc cand w).1 ⊤).length := by
          simpa [List.length_set, qtInnerUpdate_length] using hi
        rw [getWT, getD_eq_getElem _ _ hi']
        rw [List.getElem_set_ne (Ne.symm hik)]
        have hi2 : i < (qtInnerUpdate D dfc cand
            (cand.getD (qtInnerSel dfc cand w).1 0)).length := by
          simpa [qtInnerUpdate_length] using hi
        rw [← getD_eq_getElem _ ⊤ hi2, ← getWT]
        rw [qtInnerUpdate_getD D dfc cand _ hi]
        simp [Int.toNat_natCast]
      · rw [he]
        exact not_lt.1 h2

/-- `clusterDist` over a member list extended by one accepted member. -/
theorem clusterDist_append (D : Mat) (c m : ℕ) (pc : List ℕ) (h : pc ≠ []) :
    clusterDist D c (pc ++ [m]) =
      max (clusterDist D c pc) ((ent D m c : ℚ) : WithTop ℚ) := by
  induction pc with
  | nil => exact absurd rfl h
  | cons a t ih =>
    cases t with
    | nil =>
      show clusterDist D c [a, m] = _
      rw [show clusterDist D c [a, m] =
        wtMax ((ent D a c : ℚ) : WithTop ℚ) (clusterDist D c [m]) from rfl]
      rw [wtMax_eq_max]
      rfl
    | cons b t2 =>
      rw [show (a :: b :: t2) ++ [m] = a :: ((b :: t2) ++ [m]) from rfl]
      rw [show clusterDist D c (a :: ((b :: t2) ++ [m])) =
        wtMax ((ent D a c : ℚ) : WithTop ℚ) (clusterDist D c ((b :: t2) ++ [m])) from ?_]
      · rw [ih (by simp), wtMax_eq_max,
          show clusterDist D c (a :: b :: t2) =
            wtMax ((ent D a c : ℚ) : WithTop ℚ) (clusterDist D c (b :: t2)) from rfl,
          wtMax_eq_max, max_assoc]
      · cases hx : (b :: t2) ++ [m] with
        | nil => exact absurd hx (by simp)
        | cons y ys =>
          cases ys with
          | nil => simp at hx
          | cons z zs => rfl

/-- Growth-loop invariant: at every step of the candidate growth, every
remaining (non-`⊤`) candidate's distance-to-cluster equals the maximum of
its distances to all already-accepted cluster members. -/
theorem qtGrowFuel_inv (D : Mat) (cutoff : ℚ) (w : List ℚ) (cand : List ℕ)
    (fuel : ℕ) :
    ∀ (dfc : List (WithTop ℚ)) (pc : List ℕ) (diam : WithTop ℚ),
      pc ≠ [] →
      (∀ i, i < dfc.length → getWT dfc i = ⊤ ∨
        getWT dfc i = clusterDist D (cand.getD i 0) pc) →
      ((qtGrowFuel D cutoff w cand fuel dfc pc diam).2.2.length = dfc.length ∧
       (qtGrowFuel D cutoff w cand fuel dfc pc diam).1 ≠ [] ∧
       ∀ i, i < dfc.length →
         getWT (qtGrowFuel D cutoff w cand fuel dfc pc diam).2.2 i = ⊤ ∨
         getWT (qtGrowFuel D cutoff w cand fuel dfc pc diam).2.2 i =
           clusterDist D (cand.getD i 0)
             (qtGrowFuel D cutoff w cand fuel dfc pc diam).1) := by
  induction fuel with
  | zero => intro dfc pc diam hpc hinv; exact ⟨rfl, hpc, hinv⟩
  | succ fuel ih =>
    intro dfc pc diam hpc hinv
    by_cases hn : (_qt_inner D dfc cand cutoff w).next < 0
    · have he : qtGrowFuel D cutoff w cand (fuel+1) dfc pc diam = (pc, diam, dfc) := by
        rw [qtGrowFuel]
        rw [if_pos hn]
      rw [he]
      exact ⟨rfl, hpc, hinv⟩
    · have hnext : 0 ≤ (_qt_inner D dfc cand cutoff w).next := Int.not_lt.1 hn
      obtain ⟨k, hklt, hkval, hkcand, hrlen, hktop, hupd, -⟩ :=
        qt_inner_step D dfc cand cutoff w hnext
      have he : qtGrowFuel D cutoff w cand (fuel+1) dfc pc diam =
          qtGrowFuel D cutoff w cand fuel (_qt_inner D dfc cand cutoff w).dfc
            (pc ++ [(_qt_inner D dfc cand cutoff w).next.toNat])
            (if diam < (_qt_inner D dfc cand cutoff w).minval
             then (_qt_inner D dfc cand cutoff w).minval else diam) := by
        rw [qtGrowFuel]
        rw [if_neg hn]
      rw [he]
      have hinv' : ∀ i, i < (_qt_inner D dfc cand cutoff w).dfc.length →
          getWT (_qt_inner D dfc cand cutoff w).dfc i = ⊤ ∨
          getWT (_qt_inner D dfc cand cutoff w).dfc i =
            clusterDist D (cand.getD i 0)
              (pc ++ [(_qt_inner D dfc cand cutoff w).next.toNat]) := by
        intro i hi
        rw [hrlen] at hi
        by_cases hik : i = k
        · subst hik
          exact Or.inl hktop
        · rw [hupd i hi hik]
          rcases hinv i hi with htop | hcd
          · left
            rw [htop]
            exact max_eq_left le_top
          · right
            rw [hcd, clusterDist_append D _ _ pc hpc]
      have := ih (_qt_inner D dfc cand cutoff w).dfc
        (pc ++ [(_qt_inner D dfc cand cutoff w).next.toNat])
        (if diam < (_qt_inner D dfc cand cutoff w).minval
         then (_qt_inner D dfc cand cutoff w).minval else diam)
        (by simp) hinv'
      refine ⟨?_, this.2.1, ?_⟩
      · rw [this.1, hrlen]
      · intro i hi
        exact this.2.2 i (by rwa [hrlen])

/-- C1 as amended (corrected: the update is a `max`, not a `min`): after the
kernel accepts a new member, every remaining candidate's distance-to-cluster
is updated to `max(current, distance(new_member, candidate))` (the accepted
position itself is marked `⊤`, i.e. removed); hence at every step — in
particular after the whole growth from a seed — each remaining candidate's
distance-to-cluster equals the maximum of its distances to all
already-accepted cluster members. -/
theorem claim_C1 (D : Mat) (cutoff : ℚ) (w : List ℚ) (seed : ℕ) :
    (∀ (dfc : List (WithTop ℚ)) (cand : List ℕ),
      0 ≤ (_qt_inner D dfc cand cutoff w).next →
      ∃ k, k < dfc.length ∧
        getWT dfc k = (_qt_inner D dfc cand cutoff w).minval ∧
        cand.getD k 0 = (_qt_inner D dfc cand cutoff w).next.toNat ∧
        getWT (_qt_inner D dfc cand cutoff w).dfc k = ⊤ ∧
        ∀ i, i < dfc.length → i ≠ k →
          getWT (_qt_inner D dfc cand cutoff w).dfc i =
            max (getWT dfc i)
              ((ent D (_qt_inner D dfc cand cutoff w).next.toNat (cand.getD i 0) : ℚ) :
                WithTop ℚ)) ∧
    (∀ i, i < (_qt_outer D seed cutoff).length →
      getWT (qtGrow D cutoff w seed).2.2 i = ⊤ ∨
      getWT (qtGrow D cutoff w seed).2.2 i =
        clusterDist D ((_qt_outer D seed cutoff).getD i 0) (qtGrow D cutoff w seed).1) := by
  constructor
  · intro dfc cand hnext
    obtain ⟨k, hklt, hkval, hkcand, _, hktop, hupd, -⟩ :=
      qt_inner_step D dfc cand cutoff w hnext
    exact ⟨k, hklt, hkval, hkcand, hktop, hupd⟩
  · intro i hi
    have hinv0 : ∀ j, j < ((_qt_outer D seed cutoff).map
        (fun c => ((ent D seed c : ℚ) : WithTop ℚ))).length →
        getWT ((_qt_outer D seed cutoff).map
          (fun c => ((ent D seed c : ℚ) : WithTop ℚ))) j = ⊤ ∨
        getWT ((_qt_outer D seed cutoff).map
          (fun c => ((ent D seed c : ℚ) : WithTop ℚ))) j =
          clusterDist D ((_qt_outer D seed cutoff).getD j 0) [seed] := by
      intro j hj
      right
      have hj' : j < (_qt_outer D seed cutoff).length := by simpa using hj
      rw [getWT, getD_eq_getElem _ _ hj, List.getElem_map,
        getD_eq_getElem _ _ hj']
      rfl
    have := qtGrowFuel_inv D cutoff w (_qt_outer D seed cutoff)
      (((_qt_outer D seed cutoff).map
        (fun c => ((ent D seed c : ℚ) : WithTop ℚ))).length + 1)
      ((_qt_outer D seed cutoff).map (fun c => ((ent D seed c : ℚ) : WithTop ℚ)))
      [seed] 0 (by simp) hinv0
    have hi' : i < ((_qt_outer D seed cutoff).map
        (fun c => ((ent D seed c : ℚ) : WithTop ℚ))).length := by simpa using hi
    exact this.2.2 i hi'

/-- Witness for C1 at a concrete growth: seed 0 of `c1dist` with cutoff
`0.3` has candidates `[1, 2]`; after the growth, candidate 2 remains and its
distance-to-cluster equals the maximum of its distances to the accepted
members `[0, 1]`. -/
theorem claim_C1_witness :
    1 < (_qt_outer c1dist 0 (mkRat 3 10)).length ∧
    (getWT (qtGrow c1dist (mkRat 3 10) [1, 1, 1] 0).2.2 1 = ⊤ ∨
     getWT (qtGrow c1dist (mkRat 3 10) [1, 1, 1] 0).2.2 1 =
       clusterDist c1dist ((_qt_outer c1dist 0 (mkRat 3 10)).getD 1 0)
         (qtGrow c1dist (mkRat 3 10) [1, 1, 1] 0).1) :=
  ⟨by decide, (claim_C1 c1dist (mkRat 3 10) [1, 1, 1] 0).2 1 (by decide)⟩

/-! ### Invariant toolkit: npDelete, fancy, argsort -/

/-- `npDelete` yields a sublist. -/
theorem npDelete_sublist {α : Type _} (xs : List α) (ii : List ℕ) :
    (npDelete xs ii).Sublist xs := by
  have h1 : (xs.enum.filter (fun p => !(ii.contains p.1))).Sublist xs.enum :=
    List.filter_sublist _
  have h2 := h1.map Prod.snd
  rwa [List.enum_map_snd] at h2

/-- `npDelete` keeps a duplicate-free list duplicate-free. -/
theorem npDelete_nodup {α : Type _} {xs : List α} (ii : List ℕ) (h : xs.Nodup) :
    (npDelete xs ii).Nodup :=
  h.sublist (npDelete_sublist xs ii)

/-- Members of `npDelete xs ii` are members of `xs`. -/
theorem mem_of_mem_npDelete {α : Type _} {xs : List α} {ii : List ℕ} {x : α}
    (h : x ∈ npDelete xs ii) : x ∈ xs :=
  (npDelete_sublist xs ii).subset h

/-- Membership in `npDelete` through a surviving position. -/
theorem mem_npDelete_iff {α : Type _} {xs : List α} {ii : List ℕ} {x : α} :
    x ∈ npDelete xs ii ↔ ∃ p, p ∉ ii ∧ xs[p]? = some x := by
  rw [npDelete]
  simp only [List.mem_map, List.mem_filter, List.mem_enum_iff_getElem?, Bool.not_eq_true']
  constructor
  · rintro ⟨⟨p, y⟩, ⟨hy, hc⟩, rfl⟩
    refine ⟨p, ?_, hy⟩
    intro hmem
    rw [List.contains_eq_any_beq] at hc
    simp only [List.any_eq_false, beq_iff_eq] at hc
    exact hc p hmem rfl
  · rintro ⟨p, hp, hy⟩
    refine ⟨(p, x), ⟨hy, ?_⟩, rfl⟩
    rw [List.contains_eq_any_beq]
    simp only [List.any_eq_false, beq_iff_eq]
    intro q hq hqp
    exact hp (hqp ▸ hq)

/-- Positions of a duplicate-free list holding equal entries are equal. -/
theorem nodup_getElem_inj {α : Type _} {xs : List α} (h : xs.Nodup) {i j : ℕ}
    (hi : i < xs.length) (hj : j < xs.length) (he : xs[i] = xs[j]) : i = j := by
  have hf : (⟨i, hi⟩ : Fin xs.length) = ⟨j, hj⟩ :=
    (h.get_inj_iff).1 (by simpa [List.get_eq_getElem] using he)
  simpa using congrArg Fin.val hf

/-- Fancy indexing at duplicate-free in-range positions of a duplicate-free
list is duplicate-free. -/
theorem fancy_nodup {α : Type _} {xs : List α} {d : α} {ps : List ℕ} (hxs : xs.Nodup)
    (hps : ps.Nodup) (hb : ∀ p ∈ ps, p < xs.length) : (fancy xs d ps).Nodup := by
  rw [fancy]
  refine List.Nodup.map_on ?_ hps
  intro i hi j hj hij
  have hi' := hb i hi
  have hj' := hb j hj
  rw [getD_eq_getElem _ _ hi', getD_eq_getElem _ _ hj'] at hij
  exact nodup_getElem_inj hxs hi' hj' hij

/-- Members of a fancy-indexed list with in-range positions are members of
the base list. -/
theorem mem_of_mem_fancy {α : Type _} {xs : List α} {d : α} {ps : List ℕ} {x : α}
    (hb : ∀ p ∈ ps, p < xs.length) (h : x ∈ fancy xs d ps) : x ∈ xs := by
  rcases mem_fancy.1 h with ⟨p, hp, rfl⟩
  rw [getD_eq_getElem _ _ (hb p hp)]
  exact List.getElem_mem _

/-- Entries picked at positions in `ps` are disjoint from entries surviving
`npDelete xs ps` when the base list is duplicate-free. -/
theorem fancy_disjoint_npDelete {α : Type _} {xs : List α} {d : α} {ps : List ℕ}
    (hxs : xs.Nodup) (hb : ∀ p ∈ ps, p < xs.length) :
    ∀ x ∈ fancy xs d ps, x ∉ npDelete xs ps := by
  intro x hx hx'
  rcases mem_fancy.1 hx with ⟨p, hp, rfl⟩
  rcases mem_npDelete_iff.1 hx' with ⟨q, hq, hqe⟩
  obtain ⟨hqlt, hqe'⟩ := List.getElem?_eq_some.1 hqe
  have hplt := hb p hp
  rw [getD_eq_getElem _ _ hplt] at hqe'
  exact hq (nodup_getElem_inj hxs hqlt hplt hqe' ▸ hp)

/-- Filtering an enumeration on positions has the same length as filtering
the corresponding range of positions. -/
theorem enumFrom_filter_fst_length {α : Type _} (f : ℕ → Bool) :
    ∀ (xs : List α) (n : ℕ),
      ((List.enumFrom n xs).filter (fun p => f p.1)).length =
        ((List.range' n xs.length).filter f).length := by
  intro xs
  induction xs with
  | nil => intro n; rfl
  | cons x t ih =>
    intro n
    rw [List.enumFrom, List.length_cons, List.range'_succ, List.filter_cons,
      List.filter_cons]
    by_cases hf : f n
    · simp only [hf, if_pos, List.length_cons, ih]
    · simp only [hf, Bool.false_eq_true, if_false, ih]

/-- The length of `npDelete` only depends on the base list's length. -/
theorem npDelete_length {α : Type _} (xs : List α) (ii : List ℕ) :
    (npDelete xs ii).length =
      ((List.range xs.length).filter (fun p => !(ii.contains p))).length := by
  rw [npDelete, List.length_map]
  have h : xs.enum = List.enumFrom 0 xs := rfl
  rw [h, enumFrom_filter_fst_length (fun p => !(ii.contains p)) xs 0,
    List.range_eq_range']

/-- `npDelete` with the same positions preserves equality of lengths. -/
theorem npDelete_length_sync {α β : Type _} (xs : List α) (ys : List β) (ii : List ℕ)
    (h : xs.length = ys.length) : (npDelete xs ii).length = (npDelete ys ii).length := by
  rw [npDelete_length, npDelete_length, h]

/-- Deleting the same rows and columns keeps a square matrix square. -/
theorem deleteRowsCols_isSquare {m : Mat} {ii : List ℕ} (hsq : isSquare m = true) :
    isSquare (deleteRowsCols m ii) = true := by
  rw [isSquare, List.all_eq_true]
  intro r hr
  rw [deleteRowsCols] at hr
  rcases List.mem_map.1 hr with ⟨r0, hr0, rfl⟩
  have hr0m : r0 ∈ m := mem_of_mem_npDelete hr0
  have hlen : r0.length = m.length :=
    decide_eq_true_iff.1 ((List.all_eq_true.1 hsq) _ hr0m)
  refine decide_eq_true_iff.2 ?_
  rw [deleteRowsCols, List.length_map, npDelete_length, npDelete_length, hlen]

/-- The length of `deleteRowsCols`. -/
theorem deleteRowsCols_length (m : Mat) (ii : List ℕ) :
    (deleteRowsCols m ii).length = (npDelete m ii).length := by
  rw [deleteRowsCols, List.length_map]

/-- The `daura` leader is an in-range row when the state is well-formed. -/
theorem dauraLeader_lt {s : DauraState} (hne : s.indexes ≠ [])
    (hlen : s.indexes.length = s.adj.length) : dauraLeader s < s.adj.length := by
  have hN : 0 < s.adj.length := hlen ▸ List.length_pos.2 hne
  have hd : dauraDegrees s.adj s.weights ≠ [] := by
    intro hnil
    rw [← dauraDegrees_length s.adj s.weights, hnil] at hN
    exact Nat.lt_irrefl 0 hN
  have := npArgmax_lt_length _ hd
  rwa [dauraDegrees_length] at this

/-- Partition invariant of the `daura` loop: if the accumulated clusters
plus the eligible indices are duplicate-free and bounded, so is any returned
clustering. -/
theorem dauraLoop_partition (ms : ℚ) (mc : Option ℕ) (N : ℕ) :
    ∀ (fuel : ℕ) (s : DauraState) (r : ClusteringResult),
      isSquare s.adj = true →
      s.indexes.length = s.adj.length →
      (s.clusters.flatten ++ s.indexes).Nodup →
      (∀ x ∈ s.clusters.flatten ++ s.indexes, x < N) →
      dauraLoop ms mc fuel s = some r →
      r.clusters.flatten.Nodup ∧ ∀ x ∈ r.clusters.flatten, x < N := by
  intro fuel
  induction fuel with
  | zero =>
    intro s r _ _ _ _ h
    exact absurd h (by simp [dauraLoop])
  | succ fuel ih =>
    intro s r hsq hlen hnd hbd hres
    have hflat : r.clusters = s.clusters → r.clusters.flatten.Nodup ∧
        ∀ x ∈ r.clusters.flatten, x < N := by
      intro hre
      rw [hre]
      exact ⟨(List.nodup_append.1 hnd).1,
        fun x hx => hbd x (List.mem_append_left _ hx)⟩
    simp only [dauraLoop] at hres
    split_ifs at hres with h1 h2 h3
    · exact hflat (congrArg ClusteringResult.clusters (Option.some.inj hres)).symm
    · exact hflat (congrArg ClusteringResult.clusters (Option.some.inj hres)).symm
    · -- max_clusters reached: the appended cluster is returned
      have hne : s.indexes ≠ [] := by
        intro hnil
        rw [hnil] at h1
        exact h1 rfl
      have hnlt : dauraLeader s < s.adj.length := dauraLeader_lt hne hlen
      have hrow : (getRow s.adj (dauraLeader s)).length = s.adj.length :=
        isSquare_row_length hsq hnlt
      have hiib : ∀ p ∈ dauraClusterPos s, p < s.indexes.length := by
        intro p hp
        rw [hlen, ← hrow]
        exact (mem_dauraClusterPos.1 hp).1
      have hInd : s.indexes.Nodup := (List.nodup_append.1 hnd).2.1
      have hCnd : (fancy s.indexes 0 (dauraClusterPos s)).Nodup :=
        fancy_nodup hInd ((List.nodup_range _).filter _) hiib
      obtain rfl : (⟨"daura", s.clusters ++ [fancy s.indexes 0 (dauraClusterPos s)],
          s.ww ++ [getQ (dauraDegrees s.adj s.weights) (dauraLeader s)]⟩ :
          ClusteringResult) = r := Option.some.inj hres
      constructor
      · simp only [List.flatten_append, List.flatten_cons, List.flatten_nil,
          List.append_nil]
        rw [List.nodup_append]
        refine ⟨(List.nodup_append.1 hnd).1, hCnd, ?_⟩
        intro x hxF hxC
        have hxI : x ∈ s.indexes := mem_of_mem_fancy hiib hxC
        exact (List.nodup_append.1 hnd).2.2 hxF hxI
      · intro x hx
        simp only [List.flatten_append, List.flatten_cons, List.flatten_nil,
          List.append_nil, List.mem_append] at hx
        rcases hx with hx | hx
        · exact hbd x (List.mem_append_left _ hx)
        · exact hbd x (List.mem_append_right _ (mem_of_mem_fancy hiib hx))
    · -- recursive case
      have hne : s.indexes ≠ [] := by
        intro hnil
        rw [hnil] at h1
        exact h1 rfl
      have hnlt : dauraLeader s < s.adj.length := dauraLeader_lt hne hlen
      have hrow : (getRow s.adj (dauraLeader s)).length = s.adj.length :=
        isSquare_row_length hsq hnlt
      have hiib : ∀ p ∈ dauraClusterPos s, p < s.indexes.length := by
        intro p hp
        rw [hlen, ← hrow]
        exact (mem_dauraClusterPos.1 hp).1
      have hInd : s.indexes.Nodup := (List.nodup_append.1 hnd).2.1
      have hCnd : (fancy s.indexes 0 (dauraClusterPos s)).Nodup :=
        fancy_nodup hInd ((List.nodup_range _).filter _) hiib
      refine ih _ r (deleteRowsCols_isSquare hsq) ?_ ?_ ?_ hres
      · rw [deleteRowsCols_length]
        exact npDelete_length_sync _ _ _ hlen
      · simp only [List.flatten_append, List.flatten_cons, List.flatten_nil,
          List.append_nil]
        rw [List.append_assoc, List.nodup_append, List.nodup_append]
        refine ⟨(List.nodup_append.1 hnd).1,
          ⟨hCnd, npDelete_nodup _ hInd, fancy_disjoint_npDelete hInd hiib⟩, ?_⟩
        intro x hxF hx
        have hxI : x ∈ s.indexes := by
          rcases List.mem_append.1 hx with hx' | hx'
          · exact mem_of_mem_fancy hiib hx'
          · exact mem_of_mem_npDelete hx'
        exact (List.nodup_append.1 hnd).2.2 hxF hxI
      · intro x hx
        simp only [List.flatten_append, List.flatten_cons, List.flatten_nil,
          List.append_nil, List.mem_append] at hx
        rcases hx with (hx | hx) | hx
        · exact hbd x (List.mem_append_left _ hx)
        · exact hbd x (List.mem_append_right _ (mem_of_mem_fancy hiib hx))
        · exact hbd x (List.mem_append_right _ (mem_of_mem_npDelete hx))

/-- Membership in a stable descending insertion. -/
theorem mem_insertDesc {key : ℕ → ℚ} {i x : ℕ} : ∀ {l : List ℕ},
    x ∈ insertDesc key i l ↔ x = i ∨ x ∈ l := by
  intro l
  induction l with
  | nil => simp [insertDesc]
  | cons j rest ih =>
    rw [insertDesc]
    by_cases hc : key j < key i
    · rw [if_pos hc]
      simp [List.mem_cons]
    · rw [if_neg hc]
      simp only [List.mem_cons, ih]
      tauto

/-- Positions produced by the argsort are positions of the degree vector. -/
theorem mem_argsortDesc_lt (d : List ℚ) : ∀ x ∈ argsortDesc d, x < d.length := by
  rw [argsortDesc]
  refine @List.foldlRecOn (List ℕ) ℕ (fun acc => ∀ x ∈ acc, x < d.length)
    (List.range d.length) _ [] (by simp) ?_
  intro acc hacc i hi x hx
  rcases mem_insertDesc.1 hx with rfl | hx'
  · exact List.mem_range.1 hi
  · exact hacc x hx'

/-- Membership in the candidate list of a seed. -/
theorem mem_qt_outer {D : Mat} {sd : ℕ} {cutoff : ℚ} (hs : sd < D.length) {i : ℕ} :
    i ∈ _qt_outer D sd cutoff ↔ i < D.length ∧ i ≠ sd ∧ ent D sd i < cutoff := by
  rw [_qt_outer]
  simp only [List.mem_append, List.mem_filter, List.mem_range, List.mem_range'_1,
    decide_eq_true_iff]
  constructor
  · rintro (⟨hi, he⟩ | ⟨⟨hi1, hi2⟩, he⟩)
    · exact ⟨lt_trans hi hs, Nat.ne_of_lt hi, he⟩
    · refine ⟨by omega, by omega, he⟩
  · rintro ⟨hi, hne, he⟩
    rcases Nat.lt_or_ge i sd with h | h
    · exact Or.inl ⟨h, he⟩
    · exact Or.inr ⟨⟨by omega, by omega⟩, he⟩

/-- The candidate list of a seed is duplicate-free. -/
theorem qt_outer_nodup (D : Mat) (sd : ℕ) (cutoff : ℚ) :
    (_qt_outer D sd cutoff).Nodup := by
  rw [_qt_outer, List.nodup_append]
  refine ⟨(List.nodup_range _).filter _, (List.nodup_range' _ _).filter _, ?_⟩
  intro x hx1 hx2
  have h1 : x < sd := List.mem_range.1 (List.mem_filter.1 hx1).1
  have h2 := (List.mem_range'_1.1 (List.mem_filter.1 hx2).1).1
  omega

/-- Member list of a growth in progress: accepted members stay distinct and
in range while the `⊤` marks track acceptance. -/
theorem qtGrowFuel_members (D : Mat) (cutoff : ℚ) (w : List ℚ) (cand : List ℕ)
    (hcnd : cand.Nodup) (hcb : ∀ c ∈ cand, c < D.length) :
    ∀ (fuel : ℕ) (dfc : List (WithTop ℚ)) (pc : List ℕ) (diam : WithTop ℚ),
      pc.Nodup → (∀ p ∈ pc, p < D.length) →
      cand.length = dfc.length →
      (∀ i, i < dfc.length → getWT dfc i ≠ ⊤ → cand.getD i 0 ∉ pc) →
      ((qtGrowFuel D cutoff w cand fuel dfc pc diam).1.Nodup ∧
       ∀ p ∈ (qtGrowFuel D cutoff w cand fuel dfc pc diam).1, p < D.length) := by
  intro fuel
  induction fuel with
  | zero => intro dfc pc diam h1 h2 _ _; exact ⟨h1, h2⟩
  | succ fuel ih =>
    intro dfc pc diam hpcnd hpcb hclen hmark
    by_cases hn : (_qt_inner D dfc cand cutoff w).next < 0
    · have he : qtGrowFuel D cutoff w cand (fuel+1) dfc pc diam = (pc, diam, dfc) := by
        rw [qtGrowFuel, if_pos hn]
      rw [he]
      exact ⟨hpcnd, hpcb⟩
    · have hnext := Int.not_lt.1 hn
      obtain ⟨k, hklt, hkval, hkcand, hrlen, hktop, hupd, hmv⟩ :=
        qt_inner_step D dfc cand cutoff w hnext
      have he : qtGrowFuel D cutoff w cand (fuel+1) dfc pc diam =
          qtGrowFuel D cutoff w cand fuel (_qt_inner D dfc cand cutoff w).dfc
            (pc ++ [(_qt_inner D dfc cand cutoff w).next.toNat])
            (if diam < (_qt_inner D dfc cand cutoff w).minval
             then (_qt_inner D dfc cand cutoff w).minval else diam) := by
        rw [qtGrowFuel, if_neg hn]
      rw [he]
      have hkfin : getWT dfc k ≠ ⊤ := by
        rw [hkval]
        intro htop
        rw [htop] at hmv
        exact absurd hmv (by simp)
      have hnot : cand.getD k 0 ∉ pc := hmark k hklt hkfin
      have hkc : k < cand.length := by rw [hclen]; exact hklt
      have hmemc : cand.getD k 0 ∈ cand := by
        rw [getD_eq_getElem _ _ hkc]
        exact List.getElem_mem _
      refine ih (_qt_inner D dfc cand cutoff w).dfc
        (pc ++ [(_qt_inner D dfc cand cutoff w).next.toNat]) _ ?_ ?_ ?_ ?_
      · rw [List.nodup_append]
        refine ⟨hpcnd, List.nodup_singleton _, ?_⟩
        intro x hx hx1
        rw [List.mem_singleton] at hx1
        rw [hx1, ← hkcand] at hx
        exact hnot hx
      · intro p hp
        rcases List.mem_append.1 hp with hp | hp
        · exact hpcb p hp
        · rw [List.mem_singleton] at hp
          rw [hp, ← hkcand]
          exact hcb _ hmemc
      · rw [hclen, hrlen]
      · intro i hi hfin
        rw [hrlen] at hi
        by_cases hik : i = k
        · rw [hik] at hfin
          exact absurd hktop hfin
        · rw [hupd i hi hik] at hfin
          have hdfin : getWT dfc i ≠ ⊤ := by
            intro htop
            rw [htop] at hfin
            exact hfin (max_eq_left le_top)
          have hold := hmark i hi hdfin
          intro hmem
          rcases List.mem_append.1 hmem with hmem | hmem
          · exact hold hmem
          · rw [List.mem_singleton, ← hkcand] at hmem
            have hic : i < cand.length := by rw [hclen]; exact hi
            rw [getD_eq_getElem _ _ hic, getD_eq_getElem _ _ hkc] at hmem
            exact hik (nodup_getElem_inj hcnd hic hkc hmem)

/-- The cluster grown from an in-range seed has distinct in-range members. -/
theorem qtGrow_members (D : Mat) (cutoff : ℚ) (w : List ℚ) {sd : ℕ}
    (hsd : sd < D.length) :
    (qtGrow D cutoff w sd).1.Nodup ∧ ∀ p ∈ (qtGrow D cutoff w sd).1, p < D.length := by
  rw [qtGrow]
  refine qtGrowFuel_members D cutoff w (_qt_outer D sd cutoff)
    (qt_outer_nodup D sd cutoff)
    (fun c hc => ((mem_qt_outer hsd).1 hc).1) _ _ [sd] 0
    (List.nodup_singleton sd) ?_ ?_ ?_
  · intro p hp
    rw [List.mem_singleton] at hp
    rw [hp]
    exact hsd
  · rw [List.length_map]
  · intro i hi _
    rw [List.length_map] at hi
    intro hmem
    rw [List.mem_singleton] at hmem
    have : (_qt_outer D sd cutoff).getD i 0 ∈ _qt_outer D sd cutoff := by
      rw [getD_eq_getElem _ _ hi]
      exact List.getElem_mem _
    exact ((mem_qt_outer hsd).1 this).2.1 hmem

/-- Entries picked at disjoint position sets of a duplicate-free list are
disjoint. -/
theorem fancy_disjoint_fancy {α : Type _} {xs : List α} {d : α} {ps qs : List ℕ}
    (hxs : xs.Nodup) (hpb : ∀ p ∈ ps, p < xs.length) (hqb : ∀ q ∈ qs, q < xs.length)
    (hdisj : ∀ p ∈ ps, p ∉ qs) : ∀ x ∈ fancy xs d ps, x ∉ fancy xs d qs := by
  intro x hx hx'
  rcases mem_fancy.1 hx with ⟨p, hp, rfl⟩
  rcases mem_fancy.1 hx' with ⟨q, hq, he⟩
  rw [getD_eq_getElem _ _ (hqb q hq), getD_eq_getElem _ _ (hpb p hp)] at he
  exact hdisj p hp ((nodup_getElem_inj hxs (hqb q hq) (hpb p hp) he) ▸ hq)

/-- `np.fill_diagonal` preserves the number of rows. -/
theorem fillDiagonal_length (m : Mat) (v : ℚ) : (fillDiagonal m v).length = m.length := by
  simp [fillDiagonal]

/-- The `qt` degree vector has one entry per item. -/
theorem qtDegrees_length (D : Mat) (cutoff : ℚ) (w : List ℚ) :
    (qtDegrees D cutoff w).length = D.length := by
  simp [qtDegrees]

/-- The best cluster found by the seed scan has distinct in-range members. -/
theorem qtScan_cluster (abort : Bool) (D : Mat) (cutoff : ℚ) (w : List ℚ)
    (degrees : List ℚ) :
    ∀ (seeds : List ℕ) (best : BestSt),
      (∀ sd ∈ seeds, sd < D.length) →
      best.cluster.Nodup → (∀ p ∈ best.cluster, p < D.length) →
      ((qtScan abort D cutoff w degrees seeds best).cluster.Nodup ∧
       ∀ p ∈ (qtScan abort D cutoff w degrees seeds best).cluster, p < D.length) := by
  intro seeds
  induction seeds with
  | nil => intro best _ h1 h2; exact ⟨h1, h2⟩
  | cons sd rest ih =>
    intro best hsb h1 h2
    rw [qtScan]
    by_cases hab : abort = true ∧ getQ degrees sd < best.cluster_size
    · rw [if_pos hab]
      exact ⟨h1, h2⟩
    · rw [if_neg hab]
      have hsd : sd < D.length := hsb sd (List.mem_cons_self _ _)
      obtain ⟨hgnd, hgb⟩ := qtGrow_members D cutoff w hsd
      refine ih _ (fun t ht => hsb t (List.mem_cons_of_mem _ ht)) ?_ ?_
      · by_cases hup : qSum ((qtGrow D cutoff w sd).1.map (fun p => getQ w p)) >
            best.cluster_size ∨
            (qSum ((qtGrow D cutoff w sd).1.map (fun p => getQ w p)) =
              best.cluster_size ∧ (qtGrow D cutoff w sd).2.1 < best.diameter)
        · rw [if_pos hup]
          exact hgnd
        · rw [if_neg hup]
          exact h1
      · by_cases hup : qSum ((qtGrow D cutoff w sd).1.map (fun p => getQ w p)) >
            best.cluster_size ∨
            (qSum ((qtGrow D cutoff w sd).1.map (fun p => getQ w p)) =
              best.cluster_size ∧ (qtGrow D cutoff w sd).2.1 < best.diameter)
        · rw [if_pos hup]
          exact hgb
        · rw [if_neg hup]
          exact h2

/-- Partition invariant of the `qt` loop. -/
theorem qtLoop_partition (abort : Bool) (cutoff ms : ℚ) (mc : Option ℕ) (N : ℕ) :
    ∀ (fuel : ℕ) (s : QtState) (r : ClusteringResult),
      s.indexes.length = s.distances.length →
      (s.clusters.flatten ++ s.indexes).Nodup →
      (∀ x ∈ s.clusters.flatten ++ s.indexes, x < N) →
      qtLoop abort cutoff ms mc fuel s = some r →
      r.clusters.flatten.Nodup ∧ ∀ x ∈ r.clusters.flatten, x < N := by
  intro fuel
  induction fuel with
  | zero =>
    intro s r _ _ _ h
    exact absurd h (by simp [qtLoop])
  | succ fuel ih =>
    intro s r hlen hnd hbd hres
    have hflat : r.clusters = s.clusters → r.clusters.flatten.Nodup ∧
        ∀ x ∈ r.clusters.flatten, x < N := by
      intro hre
      rw [hre]
      exact ⟨(List.nodup_append.1 hnd).1,
        fun x hx => hbd x (List.mem_append_left _ hx)⟩
    have hseedb : ∀ sd ∈ argsortDesc (qtDegrees s.distances cutoff s.weights),
        sd < s.distances.length := by
      intro sd hsd
      have := mem_argsortDesc_lt _ sd hsd
      rwa [qtDegrees_length] at this
    obtain ⟨hbnd, hbb⟩ := qtScan_cluster abort s.distances cutoff s.weights
      (qtDegrees s.distances cutoff s.weights)
      (argsortDesc (qtDegrees s.distances cutoff s.weights)) ⟨0, 0, []⟩
      hseedb (List.nodup_nil) (by intro p hp; exact absurd hp (List.not_mem_nil p))
    have hcb : ∀ p ∈ (qtScan abort s.distances cutoff s.weights
        (qtDegrees s.distances cutoff s.weights)
        (argsortDesc (qtDegrees s.distances cutoff s.weights)) ⟨0, 0, []⟩).cluster,
        p < s.indexes.length := by
      intro p hp
      rw [hlen]
      exact hbb p hp
    have hInd : s.indexes.Nodup := (List.nodup_append.1 hnd).2.1
    have hCnd : (fancy s.indexes 0 (qtScan abort s.distances cutoff s.weights
        (qtDegrees s.distances cutoff s.weights)
        (argsortDesc (qtDegrees s.distances cutoff s.weights)) ⟨0, 0, []⟩).cluster).Nodup :=
      fancy_nodup hInd hbnd hcb
    simp only [qtLoop] at hres
    split_ifs at hres with h1 h2 h3
    · exact hflat (congrArg ClusteringResult.clusters (Option.some.inj hres)).symm
    · exact hflat (congrArg ClusteringResult.clusters (Option.some.inj hres)).symm
    · obtain rfl := Option.some.inj hres
      constructor
      · simp only [List.flatten_append, List.flatten_cons, List.flatten_nil,
          List.append_nil]
        rw [List.nodup_append]
        refine ⟨(List.nodup_append.1 hnd).1, hCnd, ?_⟩
        intro x hxF hxC
        exact (List.nodup_append.1 hnd).2.2 hxF (mem_of_mem_fancy hcb hxC)
      · intro x hx
        simp only [List.flatten_append, List.flatten_cons, List.flatten_nil,
          List.append_nil, List.mem_append] at hx
        rcases hx with hx | hx
        · exact hbd x (List.mem_append_left _ hx)
        · exact hbd x (List.mem_append_right _ (mem_of_mem_fancy hcb hx))
    · have hidxb : ∀ p ∈ (List.range s.distances.length).filter
          (fun i => !((qtScan abort s.distances cutoff s.weights
            (qtDegrees s.distances cutoff s.weights)
            (argsortDesc (qtDegrees s.distances cutoff s.weights))
            ⟨0, 0, []⟩).cluster.contains i)), p < s.indexes.length := by
        intro p hp
        rw [hlen]
        exact List.mem_range.1 (List.mem_filter.1 hp).1
      have hidxnot : ∀ p ∈ (qtScan abort s.distances cutoff s.weights
          (qtDegrees s.distances cutoff s.weights)
          (argsortDesc (qtDegrees s.distances cutoff s.weights)) ⟨0, 0, []⟩).cluster,
          p ∉ (List.range s.distances.length).filter
            (fun i => !((qtScan abort s.distances cutoff s.weights
              (qtDegrees s.distances cutoff s.weights)
              (argsortDesc (qtDegrees s.distances cutoff s.weights))
              ⟨0, 0, []⟩).cluster.contains i)) := by
        intro p hp hmem
        have := (List.mem_filter.1 hmem).2
        rw [Bool.not_eq_true'] at this
        rw [List.contains_eq_any_beq] at this
        simp only [List.any_eq_false, beq_iff_eq] at this
        exact this p hp rfl
      refine ih _ r ?_ ?_ ?_ hres
      · simp only [fancy, subMatrix, List.length_map]
      · simp only [List.flatten_append, List.flatten_cons, List.flatten_nil,
          List.append_nil]
        rw [List.append_assoc, List.nodup_append, List.nodup_append]
        refine ⟨(List.nodup_append.1 hnd).1,
          ⟨hCnd, fancy_nodup hInd ((List.nodup_range _).filter _) hidxb,
           fancy_disjoint_fancy hInd hcb hidxb hidxnot⟩, ?_⟩
        intro x hxF hx
        have hxI : x ∈ s.indexes := by
          rcases List.mem_append.1 hx with hx' | hx'
          · exact mem_of_mem_fancy hcb hx'
          · exact mem_of_mem_fancy hidxb hx'
        exact (List.nodup_append.1 hnd).2.2 hxF hxI
      · intro x hx
        simp only [List.flatten_append, List.flatten_cons, List.flatten_nil,
          List.append_nil, List.mem_append] at hx
        rcases hx with (hx | hx) | hx
        · exact hbd x (List.mem_append_left _ hx)
        · exact hbd x (List.mem_append_right _ (mem_of_mem_fancy hcb hx))
        · exact hbd x (List.mem_append_right _ (mem_of_mem_fancy hidxb hx))

/-- Cliques enumerated by `find_cliques` are sublists of the node list. -/
theorem find_cliques_sublist {adj : Mat} {nodes c : List ℕ}
    (h : c ∈ find_cliques adj nodes) : c.Sublist nodes :=
  List.mem_sublists.1 (List.mem_filter.1 h).1

/-- The winning clique of a `max_clique` round is one of the enumerated
cliques and carries its weight. -/
theorem maxCliqueBest_spec (adj : Mat) (weights : Option (List ℚ)) (nodes : List ℕ) :
    ∀ maxi, ((find_cliques adj nodes).foldl
        (fun (st : ℚ × Option (List ℕ)) c =>
          if cliqueW weights c > st.1 then (cliqueW weights c, some c) else st)
        (0, none)).2 = some maxi →
      maxi ∈ find_cliques adj nodes ∧
      ((find_cliques adj nodes).foldl
        (fun (st : ℚ × Option (List ℕ)) c =>
          if cliqueW weights c > st.1 then (cliqueW weights c, some c) else st)
        (0, none)).1 = cliqueW weights maxi := by
  refine @List.foldlRecOn (ℚ × Option (List ℕ)) (List ℕ)
    (fun st => ∀ maxi, st.2 = some maxi →
      maxi ∈ find_cliques adj nodes ∧ st.1 = cliqueW weights maxi)
    (find_cliques adj nodes) _ (0, none) ?_ ?_
  · intro maxi h
    exact absurd h (by simp)
  · intro st hst c hc maxi
    by_cases hw : cliqueW weights c > st.1
    · rw [if_pos hw]
      intro he
      obtain rfl : c = maxi := Option.some.inj he
      exact ⟨hc, rfl⟩
    · rw [if_neg hw]
      exact hst maxi

/-- Partition invariant of the `max_clique` loop. -/
theorem maxCliqueLoop_partition (adj : Mat) (weights : Option (List ℚ)) (ms : ℚ)
    (mc : Option ℕ) (N : ℕ) :
    ∀ (fuel : ℕ) (nodes : List ℕ) (cliques : List (List ℕ)) (ww : List ℚ)
      (r : ClusteringResult),
      (cliques.flatten ++ nodes).Nodup →
      (∀ x ∈ cliques.flatten ++ nodes, x < N) →
      maxCliqueLoop adj weights ms mc fuel nodes cliques ww = some (.ok r) →
      r.clusters.flatten.Nodup ∧ ∀ x ∈ r.clusters.flatten, x < N := by
  intro fuel
  induction fuel with
  | zero =>
    intro nodes cliques ww r _ _ h
    exact absurd h (by simp [maxCliqueLoop])
  | succ fuel ih =>
    intro nodes cliques ww r hnd hbd hres
    have hflat : r.clusters = cliques → r.clusters.flatten.Nodup ∧
        ∀ x ∈ r.clusters.flatten, x < N := by
      intro hre
      rw [hre]
      exact ⟨(List.nodup_append.1 hnd).1,
        fun x hx => hbd x (List.mem_append_left _ hx)⟩
    simp only [maxCliqueLoop] at hres
    split_ifs at hres with h1 h2
    · exact hflat
        (congrArg ClusteringResult.clusters (Except.ok.inj (Option.some.inj hres))).symm
    · exact hflat
        (congrArg ClusteringResult.clusters (Except.ok.inj (Option.some.inj hres))).symm
    · rcases hbm : ((find_cliques adj nodes).foldl
          (fun (st : ℚ × Option (List ℕ)) c =>
            if cliqueW weights c > st.1 then (cliqueW weights c, some c) else st)
          (0, none)).2 with _ | maxi
      · rw [hbm] at hres
        dsimp only at hres
        exact absurd (Option.some.inj hres) (by simp)
      · rw [hbm] at hres
        dsimp only at hres
        obtain ⟨hmem, -⟩ := maxCliqueBest_spec adj weights nodes maxi hbm
        have hsub : maxi.Sublist nodes := find_cliques_sublist hmem
        have hmaxnd : maxi.Nodup := ((List.nodup_append.1 hnd).2.1).sublist hsub
        have hmaxsub : ∀ x ∈ maxi, x ∈ nodes := fun x hx => hsub.subset hx
        by_cases h3 : mcReached mc (cliques ++ [maxi]).length = true
        · rw [if_pos h3] at hres
          obtain rfl := Except.ok.inj (Option.some.inj hres)
          constructor
          · simp only [List.flatten_append, List.flatten_cons, List.flatten_nil,
              List.append_nil]
            rw [List.nodup_append]
            refine ⟨(List.nodup_append.1 hnd).1, hmaxnd, ?_⟩
            intro x hxF hxC
            exact (List.nodup_append.1 hnd).2.2 hxF (hmaxsub x hxC)
          · intro x hx
            simp only [List.flatten_append, List.flatten_cons, List.flatten_nil,
              List.append_nil, List.mem_append] at hx
            rcases hx with hx | hx
            · exact hbd x (List.mem_append_left _ hx)
            · exact hbd x (List.mem_append_right _ (hmaxsub x hx))
        · rw [if_neg h3] at hres
          refine ih _ _ _ r ?_ ?_ hres
          · simp only [List.flatten_append, List.flatten_cons, List.flatten_nil,
              List.append_nil]
            rw [List.append_assoc, List.nodup_append, List.nodup_append]
            refine ⟨(List.nodup_append.1 hnd).1,
              ⟨hmaxnd, ((List.nodup_append.1 hnd).2.1).filter _, ?_⟩, ?_⟩
            · intro x hx hx'
              have := (List.mem_filter.1 hx').2
              rw [Bool.not_eq_true'] at this
              rw [List.contains_eq_any_beq] at this
              simp only [List.any_eq_false, beq_iff_eq] at this
              exact this x hx rfl
            · intro x hxF hx
              have hxI : x ∈ nodes := by
                rcases List.mem_append.1 hx with hx' | hx'
                · exact hmaxsub x hx'
                · exact (List.mem_filter.1 hx').1
              exact (List.nodup_append.1 hnd).2.2 hxF hxI
          · intro x hx
            simp only [List.flatten_append, List.flatten_cons, List.flatten_nil,
              List.append_nil, List.mem_append] at hx
            rcases hx with (hx | hx) | hx
            · exact hbd x (List.mem_append_left _ hx)
            · exact hbd x (List.mem_append_right _ (hmaxsub x hx))
            · exact hbd x (List.mem_append_right _ ((List.mem_filter.1 hx).1))

/-- C6 (confirmed): for every strategy on a square symmetric input, any
returned clustering has pairwise-disjoint clusters, every member is an index
of the original item set `0..N-1`, and no index occurs twice across all
clusters: the flattened cluster list is duplicate-free and bounded by `N`. -/
theorem claim_C6 :
    (∀ (adj : Mat) (w : Option (List ℚ)) (ms : ℚ) (mc : Option ℕ) (fuel : ℕ)
        (r : ClusteringResult),
      isSquare adj = true → isSymm adj = true →
      daura adj w ms mc fuel = some r →
      r.clusters.flatten.Nodup ∧ ∀ x ∈ r.clusters.flatten, x < adj.length) ∧
    (∀ (distances : Mat) (cutoff : ℚ) (w : Option (List ℚ)) (ms : ℚ) (mc : Option ℕ)
        (fuel : ℕ) (r : ClusteringResult),
      isSquare distances = true → isSymm distances = true →
      qt distances cutoff w ms mc fuel = some r →
      r.clusters.flatten.Nodup ∧ ∀ x ∈ r.clusters.flatten, x < distances.length) ∧
    (∀ (adj : Mat) (w : Option (List ℚ)) (ms : ℚ) (mc : Option ℕ) (fuel : ℕ)
        (r : ClusteringResult),
      isSquare adj = true → isSymm adj = true →
      max_clique adj w ms mc fuel = some (.ok r) →
      r.clusters.flatten.Nodup ∧ ∀ x ∈ r.clusters.flatten, x < adj.length) := by
  refine ⟨?_, ?_, ?_⟩
  · intro adj w ms mc fuel r hsq _ hres
    refine dauraLoop_partition ms mc adj.length fuel _ r hsq ?_ ?_ ?_ hres
    · exact List.length_range _
    · simpa using List.nodup_range adj.length
    · intro x hx
      simp only [List.flatten_nil, List.nil_append] at hx
      exact List.mem_range.1 hx
  · intro distances cutoff w ms mc fuel r _ _ hres
    refine qtLoop_partition true cutoff ms mc distances.length fuel _ r ?_ ?_ ?_ hres
    · rw [List.length_range, fillDiagonal_length]
    · simpa using List.nodup_range distances.length
    · intro x hx
      simp only [List.flatten_nil, List.nil_append] at hx
      exact List.mem_range.1 hx
  · intro adj w ms mc fuel r hsq _ hres
    rw [max_clique, if_pos hsq] at hres
    refine maxCliqueLoop_partition adj w ms mc adj.length fuel _ _ _ r ?_ ?_ hres
    · simpa using List.nodup_range adj.length
    · intro x hx
      simp only [List.flatten_nil, List.nil_append] at hx
      exact List.mem_range.1 hx

/-- Witness for C6 on concrete runs of the three strategies. -/
theorem claim_C6_witness :
    isSquare [[1]] = true ∧ isSymm [[0]] = true ∧ isSymm [[0, 1], [1, 0]] = true ∧
    (⟨"daura", [[0]], [1]⟩ : ClusteringResult).clusters.flatten.Nodup ∧
    (⟨"qt", [[0]], [1]⟩ : ClusteringResult).clusters.flatten.Nodup ∧
    (⟨"max_clique", [[0, 1]], [2]⟩ : ClusteringResult).clusters.flatten.Nodup := by
  refine ⟨by decide, by decide, by decide, ?_, ?_, ?_⟩
  · exact (claim_C6.1 [[1]] none 0 none 2 ⟨"daura", [[0]], [1]⟩
      (by decide) (by decide) (by decide)).1
  · exact (claim_C6.2.1 [[0]] 1 none 0 none 3 ⟨"qt", [[0]], [1]⟩
      (by decide) (by decide) (by decide)).1
  · exact (claim_C6.2.2 [[0, 1], [1, 0]] none 0 none 3 ⟨"max_clique", [[0, 1]], [2]⟩
      (by decide) (by decide) (by decide)).1

/-! ### Weight-conservation toolkit -/

/-- Filtering an enumeration on positions, as a map over the filtered
position range. -/
theorem enumFrom_filter_eq {α : Type _} (f : ℕ → Bool) (d : α) :
    ∀ (xs : List α) (n : ℕ),
      (List.enumFrom n xs).filter (fun p => f p.1) =
        ((List.range' n xs.length).filter f).map (fun p => (p, xs.getD (p - n) d)) := by
  intro xs
  induction xs with
  | nil => intro n; rfl
  | cons x t ih =>
    intro n
    rw [List.enumFrom, List.length_cons, List.range'_succ, List.filter_cons,
      List.filter_cons]
    by_cases hf : f n
    · simp only [hf, if_pos]
      rw [ih (n+1), List.map_cons]
      congr 1
      · simp
      · refine List.map_congr_left ?_
        intro p hp
        have hp1 : n + 1 ≤ p := (List.mem_range'_1.1 (List.mem_filter.1 hp).1).1
        have hd : p - n = (p - (n + 1)) + 1 := by omega
        rw [hd]
        rfl
    · simp only [hf, Bool.false_eq_true, if_false]
      rw [ih (n+1)]
      refine List.map_congr_left ?_
      intro p hp
      have hp1 : n + 1 ≤ p := (List.mem_range'_1.1 (List.mem_filter.1 hp).1).1
      have hd : p - n = (p - (n + 1)) + 1 := by omega
      rw [hd]
      rfl

/-- `np.delete` is fancy indexing at the surviving positions. -/
theorem npDelete_eq_fancy {α : Type _} (xs : List α) (ii : List ℕ) (d : α) :
    npDelete xs ii =
      fancy xs d ((List.range xs.length).filter (fun p => !(ii.contains p))) := by
  rw [npDelete, show xs.enum = List.enumFrom 0 xs from rfl,
    enumFrom_filter_eq (fun p => !(ii.contains p)) d xs 0, List.map_map,
    List.range_eq_range', fancy]
  refine List.map_congr_left ?_
  intro p _
  simp

/-- Entry of a fancy-indexed list at an in-range position. -/
theorem fancy_getD {α : Type _} (xs : List α) (d : α) (ps : List ℕ) {a : ℕ}
    (ha : a < ps.length) : (fancy xs d ps).getD a d = xs.getD (ps.getD a 0) d := by
  have ha' : a < (fancy xs d ps).length := by
    rw [fancy, List.length_map]
    exact ha
  rw [getD_eq_getElem _ _ ha']
  simp only [fancy, List.getElem_map]
  rw [← getD_eq_getElem _ 0 ha]

/-- A surviving position is an in-range position of the original list. -/
theorem survivors_getD_lt {L : ℕ} {ii : List ℕ} {c : ℕ}
    (hc : c < ((List.range L).filter (fun p => !(ii.contains p))).length) :
    ((List.range L).filter (fun p => !(ii.contains p))).getD c 0 < L := by
  have hm : ((List.range L).filter (fun p => !(ii.contains p))).getD c 0 ∈
      (List.range L).filter (fun p => !(ii.contains p)) := by
    rw [getD_eq_getElem _ _ hc]
    exact List.getElem_mem _
  exact List.mem_range.1 (List.mem_filter.1 hm).1

/-- Entry of `deleteRowsCols` in terms of the original square matrix. -/
theorem deleteRowsCols_ent {m : Mat} {ii : List ℕ} (hsq : isSquare m = true)
    {a b : ℕ}
    (ha : a < ((List.range m.length).filter (fun p => !(ii.contains p))).length)
    (hb : b < ((List.range m.length).filter (fun p => !(ii.contains p))).length) :
    ent (deleteRowsCols m ii) a b =
      ent m (((List.range m.length).filter (fun p => !(ii.contains p))).getD a 0)
            (((List.range m.length).filter (fun p => !(ii.contains p))).getD b 0) := by
  have hpa := survivors_getD_lt ha
  rw [ent, getRow, deleteRowsCols, npDelete_eq_fancy m ii []]
  have ha' : a < ((fancy m [] ((List.range m.length).filter
      (fun p => !(ii.contains p)))).map (fun r => npDelete r ii)).length := by
    simp only [List.length_map, fancy]
    exact ha
  rw [getD_eq_getElem _ _ ha', List.getElem_map]
  have hfa : a < (fancy m [] ((List.range m.length).filter
      (fun p => !(ii.contains p)))).length := by
    simp only [fancy, List.length_map]
    exact ha
  have hrowa : (fancy m [] ((List.range m.length).filter
      (fun p => !(ii.contains p))))[a] =
      getRow m (((List.range m.length).filter (fun p => !(ii.contains p))).getD a 0) := by
    simp only [fancy, List.getElem_map]
    rw [← getD_eq_getElem _ 0 ha]
    rfl
  rw [hrowa]
  have hrl : (getRow m (((List.range m.length).filter
      (fun p => !(ii.contains p))).getD a 0)).length = m.length :=
    isSquare_row_length hsq hpa
  rw [npDelete_eq_fancy _ ii (0 : ℚ), hrl]
  simp only [getQ]
  rw [fancy_getD _ _ _ hb]
  rfl

/-- Sum of an if-masked map equals the sum of the mapped filtered list. -/
theorem sum_map_ite_filter (p : ℕ → Prop) [DecidablePred p] (f : ℕ → ℚ) :
    ∀ l : List ℕ,
      (l.map (fun i => if p i then f i else 0)).sum =
        ((l.filter (fun i => decide (p i))).map f).sum := by
  intro l
  induction l with
  | nil => rfl
  | cons x t ih =>
    rw [List.map_cons, List.sum_cons, List.filter_cons]
    by_cases hp : p x
    · simp [hp, ih]
    · simp [hp, ih]

/-- Entry `n` of a mapped range. -/
theorem getQ_map_range {L : ℕ} {F : ℕ → ℚ} {n : ℕ} (hn : n < L) :
    getQ ((List.range L).map F) n = F n := by
  have h : n < ((List.range L).map F).length := by simp [hn]
  rw [getQ, getD_eq_getElem _ _ h, List.getElem_map, List.getElem_range]

/-- In a square symmetric 0/1 matrix the weighted column sum at row `n`
equals the weight sum over the positions of `n`'s positive row entries. -/
theorem dauraDegree_eq (adj : Mat) (n : ℕ) (f : ℕ → ℚ) (hn : n < adj.length)
    (hsq : isSquare adj = true)
    (hsym : ∀ i j, i < adj.length → j < adj.length → ent adj i j = ent adj j i)
    (h01 : ∀ i j, i < adj.length → j < adj.length →
      ent adj i j = 0 ∨ ent adj i j = 1) :
    qSum ((List.range adj.length).map (fun i => qMul (ent adj i n) (f i))) =
      qSum (((List.range (getRow adj n).length).filter
        (fun j => decide (0 < ent adj n j))).map f) := by
  rw [isSquare_row_length hsq hn, qSum_eq_sum, qSum_eq_sum]
  have h1 : ∀ i ∈ List.range adj.length,
      qMul (ent adj i n) (f i) = if 0 < ent adj n i then f i else 0 := by
    intro i hi
    have hi' := List.mem_range.1 hi
    rw [qMul_eq_mul, hsym i n hi' hn]
    rcases h01 n i hn hi' with h | h
    · rw [h, if_neg (lt_irrefl 0), zero_mul]
    · rw [h, if_pos one_pos, one_mul]
  rw [List.map_congr_left h1, sum_map_ite_filter]

/-- Unweighted version of `dauraDegree_eq`. -/
theorem dauraDegree_eq_card (adj : Mat) (n : ℕ) (hn : n < adj.length)
    (hsq : isSquare adj = true)
    (hsym : ∀ i j, i < adj.length → j < adj.length → ent adj i j = ent adj j i)
    (h01 : ∀ i j, i < adj.length → j < adj.length →
      ent adj i j = 0 ∨ ent adj i j = 1) :
    qSum ((List.range adj.length).map (fun i => ent adj i n)) =
      qSum (((List.range (getRow adj n).length).filter
        (fun j => decide (0 < ent adj n j))).map (fun _ => (1 : ℚ))) := by
  rw [isSquare_row_length hsq hn, qSum_eq_sum, qSum_eq_sum]
  have h1 : ∀ i ∈ List.range adj.length,
      ent adj i n = if 0 < ent adj n i then (1 : ℚ) else 0 := by
    intro i hi
    have hi' := List.mem_range.1 hi
    rw [hsym i n hi' hn]
    rcases h01 n i hn hi' with h | h
    · rw [h, if_neg (lt_irrefl 0)]
    · rw [h, if_pos one_pos]
  rw [List.map_congr_left h1, sum_map_ite_filter]

/-- The weight of a fancy-indexed cluster as a sum over its positions. -/
theorem wsum_fancy (w0 : Option (List ℚ)) (xs : List ℕ) (ps : List ℕ) :
    wsum w0 (fancy xs 0 ps) = qSum (ps.map (fun j => origW w0 (xs.getD j 0))) := by
  rw [wsum, fancy, List.map_map]
  rfl

/-- Last entry of a one-element extension. -/
theorem getD_concat_length {α : Type _} (l : List α) (x d : α) :
    (l ++ [x]).getD l.length d = x := by
  have h : l.length < (l ++ [x]).length := by simp
  rw [getD_eq_getElem _ _ h, List.getElem_concat_length _ _ _ rfl]

/-- The emitted `daura` weight is the weight sum of the emitted cluster. -/
theorem dauraDegree_eq_wsum (w0 : Option (List ℚ)) (s : DauraState)
    (hne : s.indexes ≠ [])
    (hsq : isSquare s.adj = true)
    (hsym : ∀ i j, i < s.adj.length → j < s.adj.length →
      ent s.adj i j = ent s.adj j i)
    (h01 : ∀ i j, i < s.adj.length → j < s.adj.length →
      ent s.adj i j = 0 ∨ ent s.adj i j = 1)
    (hlen : s.indexes.length = s.adj.length)
    (hwnone : s.weights = none → w0 = none)
    (hwsome : ∀ wk, s.weights = some wk →
      ∀ p, p < s.adj.length → getQ wk p = origW w0 (s.indexes.getD p 0)) :
    getQ (dauraDegrees s.adj s.weights) (dauraLeader s) =
      wsum w0 (fancy s.indexes 0 (dauraClusterPos s)) := by
  have hn : dauraLeader s < s.adj.length := dauraLeader_lt hne hlen
  have hrow : (getRow s.adj (dauraLeader s)).length = s.adj.length :=
    isSquare_row_length hsq hn
  have hposb : ∀ j ∈ dauraClusterPos s, j < s.adj.length := by
    intro j hj
    rw [← hrow]
    exact (mem_dauraClusterPos.1 hj).1
  rw [wsum_fancy]
  cases hw : s.weights with
  | none =>
    rw [hwnone hw]
    simp only [dauraDegrees]
    rw [getQ_map_range hn,
      dauraDegree_eq_card s.adj (dauraLeader s) hn hsq hsym h01]
    refine congrArg qSum (List.map_congr_left ?_)
    intro j _
    rfl
  | some wk =>
    simp only [dauraDegrees]
    rw [getQ_map_range hn,
      dauraDegree_eq s.adj (dauraLeader s) (fun i => getQ wk i) hn hsq hsym h01]
    refine congrArg qSum (List.map_congr_left ?_)
    intro j hj
    exact hwsome wk hw j (hposb j hj)

/-- Weight-conservation invariant of the `daura` loop: every reported
cluster weight is the sum of the originally supplied weights of that
cluster's members. -/
theorem dauraLoop_weights (w0 : Option (List ℚ)) (ms : ℚ) (mc : Option ℕ) :
    ∀ (fuel : ℕ) (s : DauraState) (r : ClusteringResult),
      isSquare s.adj = true →
      (∀ i j, i < s.adj.length → j < s.adj.length → ent s.adj i j = ent s.adj j i) →
      (∀ i j, i < s.adj.length → j < s.adj.length →
        ent s.adj i j = 0 ∨ ent s.adj i j = 1) →
      s.indexes.length = s.adj.length →
      (s.weights = none → w0 = none) →
      (∀ wk, s.weights = some wk → wk.length = s.adj.length ∧
        ∀ p, p < s.adj.length → getQ wk p = origW w0 (s.indexes.getD p 0)) →
      s.ww.length = s.clusters.length →
      (∀ k, k < s.clusters.length → s.ww.getD k 0 = wsum w0 (s.clusters.getD k [])) →
      dauraLoop ms mc fuel s = some r →
      r.weights.length = r.clusters.length ∧
      ∀ k, k < r.clusters.length → r.weights.getD k 0 = wsum w0 (r.clusters.getD k []) := by
  intro fuel
  induction fuel with
  | zero =>
    intro s r _ _ _ _ _ _ _ _ h
    exact absurd h (by simp [dauraLoop])
  | succ fuel ih =>
    intro s r hsq hsym h01 hlen hwnone hwsome hacclen hacc hres
    simp only [dauraLoop] at hres
    split_ifs at hres with h1 h2 h3
    · obtain rfl := Option.some.inj hres
      exact ⟨hacclen, hacc⟩
    · obtain rfl := Option.some.inj hres
      exact ⟨hacclen, hacc⟩
    all_goals {
      have hne : s.indexes ≠ [] := by
        intro hnil
        exact h1 (by rw [hnil]; rfl)
      have hkey : getQ (dauraDegrees s.adj s.weights) (dauraLeader s) =
          wsum w0 (fancy s.indexes 0 (dauraClusterPos s)) :=
        dauraDegree_eq_wsum w0 s hne hsq hsym h01 hlen hwnone
          (fun wk hw => (hwsome wk hw).2)
      have haccnew : ∀ k,
          k < (s.clusters ++ [fancy s.indexes 0 (dauraClusterPos s)]).length →
          (s.ww ++ [getQ (dauraDegrees s.adj s.weights) (dauraLeader s)]).getD k 0 =
          wsum w0 ((s.clusters ++
            [fancy s.indexes 0 (dauraClusterPos s)]).getD k []) := by
        intro k hk
        rw [List.length_append, List.length_cons, List.length_nil] at hk
        rcases Nat.lt_or_ge k s.clusters.length with hk' | hk'
        · rw [List.getD_append _ _ _ _ (by rw [hacclen]; exact hk'),
            List.getD_append _ _ _ _ hk']
          exact hacc k hk'
        · have hkeq : k = s.clusters.length := by omega
          subst hkeq
          have e1 : (s.ww ++
              [getQ (dauraDegrees s.adj s.weights) (dauraLeader s)]).getD
                s.clusters.length 0 =
              getQ (dauraDegrees s.adj s.weights) (dauraLeader s) := by
            rw [← hacclen]
            exact getD_concat_length _ _ _
          have e2 : (s.clusters ++
              [fancy s.indexes 0 (dauraClusterPos s)]).getD s.clusters.length [] =
              fancy s.indexes 0 (dauraClusterPos s) := getD_concat_length _ _ _
          rw [e1, e2, hkey]
      have hlennew : (s.ww ++
          [getQ (dauraDegrees s.adj s.weights) (dauraLeader s)]).length =
          (s.clusters ++ [fancy s.indexes 0 (dauraClusterPos s)]).length := by
        simp [hacclen]
      first
      | · obtain rfl := Option.some.inj hres
          exact ⟨hlennew, haccnew⟩
      | · have hA'len : (deleteRowsCols s.adj (dauraClusterPos s)).length =
            ((List.range s.adj.length).filter
              (fun p => !((dauraClusterPos s).contains p))).length := by
            rw [deleteRowsCols_length, npDelete_length]
          refine ih _ r (deleteRowsCols_isSquare hsq) ?_ ?_ ?_ ?_ ?_ ?_ haccnew hres
          · intro i j hi hj
            rw [hA'len] at hi hj
            rw [deleteRowsCols_ent hsq hi hj, deleteRowsCols_ent hsq hj hi]
            exact hsym _ _ (survivors_getD_lt hi) (survivors_getD_lt hj)
          · intro i j hi hj
            rw [hA'len] at hi hj
            rw [deleteRowsCols_ent hsq hi hj]
            exact h01 _ _ (survivors_getD_lt hi) (survivors_getD_lt hj)
          · rw [npDelete_length, hlen, hA'len]
          · intro hn0
            cases hw : s.weights with
            | none => exact hwnone hw
            | some wk =>
              rw [hw] at hn0
              exact absurd hn0 (by simp)
          · intro wk' hk'
            cases hw : s.weights with
            | none =>
              rw [hw] at hk'
              exact absurd hk' (by simp)
            | some wk =>
              rw [hw] at hk'
              simp only [Option.map_some] at hk'
              obtain rfl : npDelete wk (dauraClusterPos s) = wk' :=
                Option.some.inj hk'
              obtain ⟨hwklen, hwkal⟩ := hwsome wk hw
              constructor
              · rw [npDelete_length, hwklen, hA'len]
              · intro p hp
                rw [hA'len] at hp
                rw [getQ, npDelete_eq_fancy wk (dauraClusterPos s) 0, hwklen,
                  fancy_getD _ _ _ hp, npDelete_eq_fancy s.indexes
                    (dauraClusterPos s) 0, hlen, fancy_getD _ _ _ hp]
                exact hwkal _ (survivors_getD_lt hp)
          · exact hlennew
    }

/-- The best cluster's tracked size is the weight sum of its members. -/
theorem qtScan_size (abort : Bool) (D : Mat) (cutoff : ℚ) (w : List ℚ)
    (degrees : List ℚ) :
    ∀ (seeds : List ℕ) (best : BestSt),
      best.cluster_size = qSum (best.cluster.map (fun p => getQ w p)) →
      (qtScan abort D cutoff w degrees seeds best).cluster_size =
        qSum ((qtScan abort D cutoff w degrees seeds best).cluster.map
          (fun p => getQ w p)) := by
  intro seeds
  induction seeds with
  | nil => intro best h; exact h
  | cons sd rest ih =>
    intro best h
    rw [qtScan]
    by_cases hab : abort = true ∧ getQ degrees sd < best.cluster_size
    · rw [if_pos hab]
      exact h
    · rw [if_neg hab]
      refine ih _ ?_
      by_cases hup : qSum ((qtGrow D cutoff w sd).1.map (fun p => getQ w p)) >
          best.cluster_size ∨
          (qSum ((qtGrow D cutoff w sd).1.map (fun p => getQ w p)) =
            best.cluster_size ∧ (qtGrow D cutoff w sd).2.1 < best.diameter)
      · rw [if_pos hup]
      · rw [if_neg hup]
        exact h

/-- The clique weight used by `max_clique` is the original-weight sum of the
clique's members. -/
theorem cliqueW_eq_wsum (weights : Option (List ℚ)) (c : List ℕ) :
    cliqueW weights c = wsum weights c := by
  cases weights with
  | some wv => rfl
  | none =>
    rw [cliqueW, wsum, qSum_eq_sum]
    have hmc : c.map (origW none) = List.replicate c.length (1 : ℚ) := by
      rw [← List.map_const]
      exact List.map_congr_left (fun x _ => rfl)
    rw [hmc, List.sum_replicate, nsmul_eq_mul, mul_one]

/-- Weight-conservation invariant of the `qt` loop. -/
theorem qtLoop_weights (abort : Bool) (w0 : Option (List ℚ)) (cutoff ms : ℚ)
    (mc : Option ℕ) :
    ∀ (fuel : ℕ) (s : QtState) (r : ClusteringResult),
      s.indexes.length = s.distances.length →
      (∀ p, p < s.distances.length →
        getQ s.weights p = origW w0 (s.indexes.getD p 0)) →
      s.ww.length = s.clusters.length →
      (∀ k, k < s.clusters.length → s.ww.getD k 0 = wsum w0 (s.clusters.getD k [])) →
      qtLoop abort cutoff ms mc fuel s = some r →
      r.weights.length = r.clusters.length ∧
      ∀ k, k < r.clusters.length → r.weights.getD k 0 = wsum w0 (r.clusters.getD k []) := by
  intro fuel
  induction fuel with
  | zero =>
    intro s r _ _ _ _ h
    exact absurd h (by simp [qtLoop])
  | succ fuel ih =>
    intro s r hlen halign hacclen hacc hres
    have hseedb : ∀ sd ∈ argsortDesc (qtDegrees s.distances cutoff s.weights),
        sd < s.distances.length := by
      intro sd hsd
      have := mem_argsortDesc_lt _ sd hsd
      rwa [qtDegrees_length] at this
    obtain ⟨hbnd, hbb⟩ := qtScan_cluster abort s.distances cutoff s.weights
      (qtDegrees s.distances cutoff s.weights)
      (argsortDesc (qtDegrees s.distances cutoff s.weights)) ⟨0, 0, []⟩
      hseedb (List.nodup_nil) (by intro p hp; exact absurd hp (List.not_mem_nil p))
    have hsize := qtScan_size abort s.distances cutoff s.weights
      (qtDegrees s.distances cutoff s.weights)
      (argsortDesc (qtDegrees s.distances cutoff s.weights)) ⟨0, 0, []⟩ rfl
    have hkey : (qtScan abort s.distances cutoff s.weights
        (qtDegrees s.distances cutoff s.weights)
        (argsortDesc (qtDegrees s.distances cutoff s.weights))
        ⟨0, 0, []⟩).cluster_size =
        wsum w0 (fancy s.indexes 0 (qtScan abort s.distances cutoff s.weights
          (qtDegrees s.distances cutoff s.weights)
          (argsortDesc (qtDegrees s.distances cutoff s.weights))
          ⟨0, 0, []⟩).cluster) := by
      rw [hsize, wsum_fancy]
      refine congrArg qSum (List.map_congr_left ?_)
      intro p hp
      exact halign p (hbb p hp)
    have haccnew : ∀ k,
        k < (s.clusters ++ [fancy s.indexes 0 (qtScan abort s.distances cutoff
          s.weights (qtDegrees s.distances cutoff s.weights)
          (argsortDesc (qtDegrees s.distances cutoff s.weights))
          ⟨0, 0, []⟩).cluster]).length →
        (s.ww ++ [(qtScan abort s.distances cutoff s.weights
          (qtDegrees s.distances cutoff s.weights)
          (argsortDesc (qtDegrees s.distances cutoff s.weights))
          ⟨0, 0, []⟩).cluster_size]).getD k 0 =
        wsum w0 ((s.clusters ++ [fancy s.indexes 0 (qtScan abort s.distances cutoff
          s.weights (qtDegrees s.distances cutoff s.weights)
          (argsortDesc (qtDegrees s.distances cutoff s.weights))
          ⟨0, 0, []⟩).cluster]).getD k []) := by
      intro k hk
      rw [List.length_append, List.length_cons, List.length_nil] at hk
      rcases Nat.lt_or_ge k s.clusters.length with hk' | hk'
      · rw [List.getD_append _ _ _ _ (by rw [hacclen]; exact hk'),
          List.getD_append _ _ _ _ hk']
        exact hacc k hk'
      · have hkeq : k = s.clusters.length := by omega
        subst hkeq
        have e1 := getD_concat_length s.ww ((qtScan abort s.distances cutoff
          s.weights (qtDegrees s.distances cutoff s.weights)
          (argsortDesc (qtDegrees s.distances cutoff s.weights))
          ⟨0, 0, []⟩).cluster_size) 0
        rw [hacclen] at e1
        rw [e1, getD_concat_length, hkey]
    have hlennew : (s.ww ++ [(qtScan abort s.distances cutoff s.weights
        (qtDegrees s.distances cutoff s.weights)
        (argsortDesc (qtDegrees s.distances cutoff s.weights))
        ⟨0, 0, []⟩).cluster_size]).length =
        (s.clusters ++ [fancy s.indexes 0 (qtScan abort s.distances cutoff
          s.weights (qtDegrees s.distances cutoff s.weights)
          (argsortDesc (qtDegrees s.distances cutoff s.weights))
          ⟨0, 0, []⟩).cluster]).length := by
      simp [hacclen]
    simp only [qtLoop] at hres
    split_ifs at hres with h1 h2 h3
    · obtain rfl := Option.some.inj hres
      exact ⟨hacclen, hacc⟩
    · obtain rfl := Option.some.inj hres
      exact ⟨hacclen, hacc⟩
    · obtain rfl := Option.some.inj hres
      exact ⟨hlennew, haccnew⟩
    · refine ih _ r ?_ ?_ hlennew haccnew hres
      · simp only [fancy, subMatrix, List.length_map]
      · intro p hp
        simp only [subMatrix, List.length_map] at hp
        rw [getQ, fancy_getD _ _ _ hp, fancy_getD _ _ _ hp]
        have hplt : ((List.range s.distances.length).filter
            (fun i => !((qtScan abort s.distances cutoff s.weights
              (qtDegrees s.distances cutoff s.weights)
              (argsortDesc (qtDegrees s.distances cutoff s.weights))
              ⟨0, 0, []⟩).cluster.contains i))).getD p 0 < s.distances.length :=
          survivors_getD_lt hp
        exact halign _ hplt

/-- Weight-conservation invariant of the `max_clique` loop. -/
theorem maxCliqueLoop_weights (adj : Mat) (weights : Option (List ℚ)) (ms : ℚ)
    (mc : Option ℕ) :
    ∀ (fuel : ℕ) (nodes : List ℕ) (cliques : List (List ℕ)) (ww : List ℚ)
      (r : ClusteringResult),
      ww.length = cliques.length →
      (∀ k, k < cliques.length → ww.getD k 0 = wsum weights (cliques.getD k [])) →
      maxCliqueLoop adj weights ms mc fuel nodes cliques ww = some (.ok r) →
      r.weights.length = r.clusters.length ∧
      ∀ k, k < r.clusters.length →
        r.weights.getD k 0 = wsum weights (r.clusters.getD k []) := by
  intro fuel
  induction fuel with
  | zero =>
    intro nodes cliques ww r _ _ h
    exact absurd h (by simp [maxCliqueLoop])
  | succ fuel ih =>
    intro nodes cliques ww r hacclen hacc hres
    simp only [maxCliqueLoop] at hres
    split_ifs at hres with h1 h2
    · obtain rfl := Except.ok.inj (Option.some.inj hres)
      exact ⟨hacclen, hacc⟩
    · obtain rfl := Except.ok.inj (Option.some.inj hres)
      exact ⟨hacclen, hacc⟩
    · rcases hbm : ((find_cliques adj nodes).foldl
          (fun (st : ℚ × Option (List ℕ)) c =>
            if cliqueW weights c > st.1 then (cliqueW weights c, some c) else st)
          (0, none)).2 with _ | maxi
      · rw [hbm] at hres
        dsimp only at hres
        exact absurd (Option.some.inj hres) (by simp)
      · rw [hbm] at hres
        dsimp only at hres
        obtain ⟨-, hwval⟩ := maxCliqueBest_spec adj weights nodes maxi hbm
        have haccnew : ∀ k, k < (cliques ++ [maxi]).length →
            (ww ++ [((find_cliques adj nodes).foldl
              (fun (st : ℚ × Option (List ℕ)) c =>
                if cliqueW weights c > st.1 then (cliqueW weights c, some c) else st)
              (0, none)).1]).getD k 0 =
            wsum weights ((cliques ++ [maxi]).getD k []) := by
          intro k hk
          rw [List.length_append, List.length_cons, List.length_nil] at hk
          rcases Nat.lt_or_ge k cliques.length with hk' | hk'
          · rw [List.getD_append _ _ _ _ (by rw [hacclen]; exact hk'),
              List.getD_append _ _ _ _ hk']
            exact hacc k hk'
          · have hkeq : k = cliques.length := by omega
            subst hkeq
            have e1 := getD_concat_length ww (((find_cliques adj nodes).foldl
              (fun (st : ℚ × Option (List ℕ)) c =>
                if cliqueW weights c > st.1 then (cliqueW weights c, some c) else st)
              (0, none)).1) 0
            rw [hacclen] at e1
            rw [e1, getD_concat_length, hwval, cliqueW_eq_wsum]
        have hlennew : (ww ++ [((find_cliques adj nodes).foldl
            (fun (st : ℚ × Option (List ℕ)) c =>
              if cliqueW weights c > st.1 then (cliqueW weights c, some c) else st)
            (0, none)).1]).length = (cliques ++ [maxi]).length := by
          simp [hacclen]
        by_cases h3 : mcReached mc (cliques ++ [maxi]).length = true
        · rw [if_pos h3] at hres
          obtain rfl := Except.ok.inj (Option.some.inj hres)
          exact ⟨hlennew, haccnew⟩
        · rw [if_neg h3] at hres
          exact ih _ _ _ r hlennew haccnew hres

/-- C7 (confirmed): for every strategy on a valid square symmetric input
(0/1 entries and a matching weight length where the strategy uses them), the
`i`-th reported cluster weight equals the sum of the originally supplied
weights of the members of the `i`-th cluster, each member counting 1 when
`weights` is `None`. -/
theorem claim_C7 :
    (∀ (adj : Mat) (w : Option (List ℚ)) (ms : ℚ) (mc : Option ℕ) (fuel : ℕ)
        (r : ClusteringResult),
      isSquare adj = true → isSymm adj = true → isZeroOne adj = true →
      (∀ wv, w = some wv → wv.length = adj.length) →
      daura adj w ms mc fuel = some r →
      r.weights.length = r.clusters.length ∧
      ∀ k, k < r.clusters.length → r.weights.getD k 0 = wsum w (r.clusters.getD k [])) ∧
    (∀ (distances : Mat) (cutoff : ℚ) (w : Option (List ℚ)) (ms : ℚ) (mc : Option ℕ)
        (fuel : ℕ) (r : ClusteringResult),
      qt distances cutoff w ms mc fuel = some r →
      r.weights.length = r.clusters.length ∧
      ∀ k, k < r.clusters.length → r.weights.getD k 0 = wsum w (r.clusters.getD k [])) ∧
    (∀ (adj : Mat) (w : Option (List ℚ)) (ms : ℚ) (mc : Option ℕ) (fuel : ℕ)
        (r : ClusteringResult),
      isSquare adj = true →
      max_clique adj w ms mc fuel = some (.ok r) →
      r.weights.length = r.clusters.length ∧
      ∀ k, k < r.clusters.length →
        r.weights.getD k 0 = wsum w (r.clusters.getD k [])) := by
  refine ⟨?_, ?_, ?_⟩
  · intro adj w ms mc fuel r hsq hsym h01 hwlen hres
    refine dauraLoop_weights w ms mc fuel _ r hsq ?_ ?_ ?_ ?_ ?_ rfl ?_ hres
    · intro i j hi hj
      have := decide_eq_true_iff.1 ((List.all_eq_true.1
        ((List.all_eq_true.1 hsym) i (List.mem_range.2 hi))) j (List.mem_range.2 hj))
      exact this
    · intro i j hi hj
      exact decide_eq_true_iff.1 ((List.all_eq_true.1
        ((List.all_eq_true.1 h01) i (List.mem_range.2 hi))) j (List.mem_range.2 hj))
    · exact List.length_range _
    · intro h
      cases w with
      | none => rfl
      | some wv => exact absurd h (by simp)
    · intro wk hk
      cases w with
      | none => exact absurd hk (by simp)
      | some wv =>
        obtain rfl : wv = wk := Option.some.inj hk
        refine ⟨hwlen wv rfl, ?_⟩
        intro p hp
        have hp' : p < (List.range adj.length).length := by
          rw [List.length_range]
          exact hp
        rw [getD_eq_getElem _ _ hp', List.getElem_range]
        rfl
    · intro k hk
      exact absurd hk (Nat.not_lt_zero k)
  · intro distances cutoff w ms mc fuel r hres
    refine qtLoop_weights true w cutoff ms mc fuel _ r ?_ ?_ rfl ?_ hres
    · rw [List.length_range, fillDiagonal_length]
    · intro p hp
      rw [fillDiagonal_length] at hp
      have hp' : p < (List.range distances.length).length := by
        rw [List.length_range]
        exact hp
      rw [getD_eq_getElem _ _ hp', List.getElem_range]
      cases w with
      | none =>
        have hrep : p < (List.replicate distances.length (1 : ℚ)).length := by
          rw [List.length_replicate]
          exact hp
        rw [getQ, getD_eq_getElem _ _ hrep, List.getElem_replicate]
        rfl
      | some wv => rfl
    · intro k hk
      exact absurd hk (Nat.not_lt_zero k)
  · intro adj w ms mc fuel r hsq hres
    rw [max_clique, if_pos hsq] at hres
    refine maxCliqueLoop_weights adj w ms mc fuel _ _ _ r rfl ?_ hres
    intro k hk
    exact absurd hk (Nat.not_lt_zero k)

/-- Witness for C7 on concrete runs of the three strategies. -/
theorem claim_C7_witness :
    isZeroOne [[1]] = true ∧
    (⟨"daura", [[0]], [1]⟩ : ClusteringResult).weights.getD 0 0 =
      wsum none (([[0]] : List (List ℕ)).getD 0 []) ∧
    (⟨"qt", [[0]], [1]⟩ : ClusteringResult).weights.getD 0 0 =
      wsum none (([[0]] : List (List ℕ)).getD 0 []) ∧
    (⟨"max_clique", [[0, 1]], [2]⟩ : ClusteringResult).weights.getD 0 0 =
      wsum (some [1, 1]) (([[0, 1]] : List (List ℕ)).getD 0 []) := by
  refine ⟨by decide, ?_, ?_, ?_⟩
  · exact (claim_C7.1 [[1]] none 0 none 2 ⟨"daura", [[0]], [1]⟩ (by decide) (by decide)
      (by decide) (by intro wv h; exact absurd h (by simp)) (by decide)).2 0
      (by decide)
  · exact (claim_C7.2.1 [[0]] 1 none 0 none 3 ⟨"qt", [[0]], [1]⟩ (by decide)).2 0
      (by decide)
  · exact (claim_C7.2.2 [[0, 1], [1, 0]] (some [1, 1]) 0 none 3
      ⟨"max_clique", [[0, 1]], [2]⟩ (by decide) (by decide)).2 0 (by decide)

/-! ### max_clusters semantics (C3) -/

/-- `daura` with `max_clusters = 0` is `daura` with `max_clusters = None`:
python's `if max_clusters:` treats 0 as false. -/
theorem dauraLoop_mc_zero (ms : ℚ) : ∀ (fuel : ℕ) (s : DauraState),
    dauraLoop ms (some 0) fuel s = dauraLoop ms none fuel s := by
  intro fuel
  induction fuel with
  | zero => intro s; rfl
  | succ fuel ih =>
    intro s
    simp only [dauraLoop, show ∀ k, pyTruthyLimit (some 0) k = false from fun k => rfl,
      show ∀ k, pyTruthyLimit none k = false from fun k => rfl,
      Bool.false_eq_true, if_false, ih]

/-- `qt` checks the cluster limit only after emitting, so `max_clusters = 0`
behaves as `max_clusters = 1`. -/
theorem qtLoop_mc_zero_one (abort : Bool) (cutoff ms : ℚ) :
    ∀ (fuel : ℕ) (s : QtState),
      qtLoop abort cutoff ms (some 0) fuel s = qtLoop abort cutoff ms (some 1) fuel s := by
  intro fuel
  induction fuel with
  | zero => intro s; rfl
  | succ fuel ih =>
    intro s
    have h0 : ∀ n : ℕ, mcReached (some 0) (n+1) = true := by
      intro n; simp only [mcReached, decide_eq_true_eq]; omega
    have h1 : ∀ n : ℕ, mcReached (some 1) (n+1) = true := by
      intro n; simp only [mcReached, decide_eq_true_eq]; omega
    simp only [qtLoop, h0, h1, ih]

/-- `max_clique` checks the cluster limit only after emitting, so
`max_clusters = 0` behaves as `max_clusters = 1`. -/
theorem maxCliqueLoop_mc_zero_one (adj : Mat) (weights : Option (List ℚ)) (ms : ℚ) :
    ∀ (fuel : ℕ) (nodes : List ℕ) (cliques : List (List ℕ)) (ww : List ℚ),
      maxCliqueLoop adj weights ms (some 0) fuel nodes cliques ww =
        maxCliqueLoop adj weights ms (some 1) fuel nodes cliques ww := by
  intro fuel
  induction fuel with
  | zero => intro nodes cliques ww; rfl
  | succ fuel ih =>
    intro nodes cliques ww
    have h0 : ∀ n : ℕ, mcReached (some 0) (n + 1) = true := by
      intro n; simp only [mcReached, decide_eq_true_eq]; omega
    have h1 : ∀ n : ℕ, mcReached (some 1) (n + 1) = true := by
      intro n; simp only [mcReached, decide_eq_true_eq]; omega
    simp only [maxCliqueLoop, List.length_append, List.length_cons, List.length_nil,
      h0, h1, ih]

/-- `if max_clusters:` followed by `if len >= max_clusters:`, decoded. -/
theorem pyTruthyLimit_some_iff (K n : ℕ) :
    pyTruthyLimit (some K) n = true ↔ (K ≠ 0 ∧ K ≤ n) := by
  simp [pyTruthyLimit, ge_iff_le]

/-- `if max_clusters is not None: if n >= max_clusters:`, decoded. -/
theorem mcReached_some_iff (K n : ℕ) :
    mcReached (some K) n = true ↔ K ≤ n := by
  simp [mcReached, ge_iff_le]

/-- Whatever `dauraLoop` returns extends the accumulated clusters and
weights of its starting state. -/
theorem dauraLoop_extends (ms : ℚ) (mc : Option ℕ) :
    ∀ (fuel : ℕ) (s : DauraState) (r : ClusteringResult),
      dauraLoop ms mc fuel s = some r →
      ∃ tc tw, r.clusters = s.clusters ++ tc ∧ r.weights = s.ww ++ tw := by
  intro fuel
  induction fuel with
  | zero =>
    intro s r h
    exact absurd h (by simp [dauraLoop])
  | succ fuel ih =>
    intro s r hres
    simp only [dauraLoop] at hres
    split_ifs at hres with h1 h2 h3
    · obtain rfl : (⟨"daura", s.clusters, s.ww⟩ : ClusteringResult) = r :=
        Option.some.inj hres
      exact ⟨[], [], by simp, by simp⟩
    · obtain rfl : (⟨"daura", s.clusters, s.ww⟩ : ClusteringResult) = r :=
        Option.some.inj hres
      exact ⟨[], [], by simp, by simp⟩
    · obtain rfl : (⟨"daura", s.clusters ++ [fancy s.indexes 0 (dauraClusterPos s)],
          s.ww ++ [getQ (dauraDegrees s.adj s.weights) (dauraLeader s)]⟩ :
          ClusteringResult) = r := Option.some.inj hres
      exact ⟨_, _, rfl, rfl⟩
    · obtain ⟨tc, tw, hc, hw⟩ := ih _ r hres
      refine ⟨[fancy s.indexes 0 (dauraClusterPos s)] ++ tc,
        [getQ (dauraDegrees s.adj s.weights) (dauraLeader s)] ++ tw, ?_, ?_⟩
      · rw [hc]; simp
      · rw [hw]; simp

/-- With `max_clusters = K ≥ 1`, `dauraLoop` never accumulates more than `K`
clusters or `K` weights. -/
theorem dauraLoop_cap (ms : ℚ) (K : ℕ) (hK : 1 ≤ K) :
    ∀ (fuel : ℕ) (s : DauraState) (r : ClusteringResult),
      s.clusters.length < K → s.ww.length = s.clusters.length →
      dauraLoop ms (some K) fuel s = some r →
      r.clusters.length ≤ K ∧ r.weights.length ≤ K := by
  intro fuel
  induction fuel with
  | zero =>
    intro s r _ _ h
    exact absurd h (by simp [dauraLoop])
  | succ fuel ih =>
    intro s r hlt hsync hres
    simp only [dauraLoop] at hres
    split_ifs at hres with h1 h2 h3
    · obtain rfl : (⟨"daura", s.clusters, s.ww⟩ : ClusteringResult) = r :=
        Option.some.inj hres
      exact ⟨le_of_lt hlt, le_of_lt (lt_of_eq_of_lt hsync hlt)⟩
    · obtain rfl : (⟨"daura", s.clusters, s.ww⟩ : ClusteringResult) = r :=
        Option.some.inj hres
      exact ⟨le_of_lt hlt, le_of_lt (lt_of_eq_of_lt hsync hlt)⟩
    · obtain rfl : (⟨"daura", s.clusters ++ [fancy s.indexes 0 (dauraClusterPos s)],
          s.ww ++ [getQ (dauraDegrees s.adj s.weights) (dauraLeader s)]⟩ :
          ClusteringResult) = r := Option.some.inj hres
      constructor
      · simp only [List.length_append, List.length_cons, List.length_nil]
        omega
      · simp only [List.length_append, List.length_cons, List.length_nil]
        omega
    · have hno : ¬ (K ≠ 0 ∧ K ≤ (s.clusters ++ [fancy s.indexes 0 (dauraClusterPos s)]).length) :=
        fun hc => h3 ((pyTruthyLimit_some_iff K _).2 hc)
      have hlen' : (s.clusters ++ [fancy s.indexes 0 (dauraClusterPos s)]).length < K := by
        simp only [List.length_append, List.length_cons, List.length_nil] at hno ⊢
        omega
      refine ih _ r ?_ ?_ hres
      · simpa using hlen'
      · simp [hsync]

/-- With `max_clusters = K ≥ 1`, `dauraLoop` returns exactly the first `K`
clusters (and weights) of the unconstrained run, whenever the latter
terminates on the same fuel. -/
theorem dauraLoop_take (ms : ℚ) (K : ℕ) (hK : 1 ≤ K) :
    ∀ (fuel : ℕ) (s : DauraState) (r : ClusteringResult),
      s.clusters.length < K → s.ww.length = s.clusters.length →
      dauraLoop ms none fuel s = some r →
      dauraLoop ms (some K) fuel s =
        some ⟨"daura", r.clusters.take K, r.weights.take K⟩ := by
  intro fuel
  induction fuel with
  | zero =>
    intro s r _ _ h
    exact absurd h (by simp [dauraLoop])
  | succ fuel ih =>
    intro s r hlt hsync hres
    simp only [dauraLoop, show ∀ k, pyTruthyLimit none k = false from fun k => rfl,
      Bool.false_eq_true, if_false] at hres
    simp only [dauraLoop]
    split_ifs at hres ⊢ with h1 h2 h3
    · obtain rfl : (⟨"daura", s.clusters, s.ww⟩ : ClusteringResult) = r :=
        Option.some.inj hres
      have t1 : s.clusters.take K = s.clusters := List.take_of_length_le (le_of_lt hlt)
      have t2 : s.ww.take K = s.ww :=
        List.take_of_length_le (le_of_lt (lt_of_eq_of_lt hsync hlt))
      simp [t1, t2]
    · obtain rfl : (⟨"daura", s.clusters, s.ww⟩ : ClusteringResult) = r :=
        Option.some.inj hres
      have t1 : s.clusters.take K = s.clusters := List.take_of_length_le (le_of_lt hlt)
      have t2 : s.ww.take K = s.ww :=
        List.take_of_length_le (le_of_lt (lt_of_eq_of_lt hsync hlt))
      simp [t1, t2]
    · -- the limit is reached exactly now: the appended lists have length K
      have hlen : (s.clusters ++ [fancy s.indexes 0 (dauraClusterPos s)]).length = K := by
        have hx := (pyTruthyLimit_some_iff K _).1 h3
        simp only [List.length_append, List.length_cons, List.length_nil] at hx ⊢
        omega
      have hwlen : (s.ww ++ [getQ (dauraDegrees s.adj s.weights) (dauraLeader s)]).length
          = K := by
        simp only [List.length_append, List.length_cons, List.length_nil] at hlen ⊢
        omega
      obtain ⟨tc, tw, hc, hw⟩ := dauraLoop_extends ms none fuel _ r hres
      dsimp only at hc hw
      have hc' : r.clusters.take K = s.clusters ++ [fancy s.indexes 0 (dauraClusterPos s)] := by
        rw [hc]
        exact List.take_left' hlen
      have hw' : r.weights.take K =
          s.ww ++ [getQ (dauraDegrees s.adj s.weights) (dauraLeader s)] := by
        rw [hw]
        exact List.take_left' hwlen
      rw [hc', hw']
    · -- the limit is not yet reached: recurse with the grown accumulators
      have hno : ¬ (K ≠ 0 ∧ K ≤ (s.clusters ++ [fancy s.indexes 0 (dauraClusterPos s)]).length) :=
        fun hc => h3 ((pyTruthyLimit_some_iff K _).2 hc)
      have hlen' : (s.clusters ++ [fancy s.indexes 0 (dauraClusterPos s)]).length < K := by
        simp only [List.length_append, List.length_cons, List.length_nil] at hno ⊢
        omega
      refine ih _ r ?_ ?_ hres
      · simpa using hlen'
      · simp [hsync]

/-- Whatever `qtLoop` returns extends the accumulated clusters and weights
of its starting state. -/
theorem qtLoop_extends (abort : Bool) (cutoff ms : ℚ) (mc : Option ℕ) :
    ∀ (fuel : ℕ) (s : QtState) (r : ClusteringResult),
      qtLoop abort cutoff ms mc fuel s = some r →
      ∃ tc tw, r.clusters = s.clusters ++ tc ∧ r.weights = s.ww ++ tw := by
  intro fuel
  induction fuel with
  | zero =>
    intro s r h
    exact absurd h (by simp [qtLoop])
  | succ fuel ih =>
    intro s r hres
    simp only [qtLoop] at hres
    split_ifs at hres with h1 h2 h3
    · obtain rfl : (⟨"qt", s.clusters, s.ww⟩ : ClusteringResult) = r :=
        Option.some.inj hres
      exact ⟨[], [], by simp, by simp⟩
    · obtain rfl : (⟨"qt", s.clusters, s.ww⟩ : ClusteringResult) = r :=
        Option.some.inj hres
      exact ⟨[], [], by simp, by simp⟩
    · obtain rfl : (⟨"qt", s.clusters ++ [fancy s.indexes 0 (qtScan abort s.distances cutoff
          s.weights (qtDegrees s.distances cutoff s.weights)
          (argsortDesc (qtDegrees s.distances cutoff s.weights)) ⟨0, 0, []⟩).cluster],
          s.ww ++ [(qtScan abort s.distances cutoff s.weights
          (qtDegrees s.distances cutoff s.weights)
          (argsortDesc (qtDegrees s.distances cutoff s.weights)) ⟨0, 0, []⟩).cluster_size]⟩ :
          ClusteringResult) = r := Option.some.inj hres
      exact ⟨_, _, rfl, rfl⟩
    · obtain ⟨tc, tw, hc, hw⟩ := ih _ r hres
      dsimp only at hc hw
      refine ⟨[fancy s.indexes 0 (qtScan abort s.distances cutoff s.weights
          (qtDegrees s.distances cutoff s.weights)
          (argsortDesc (qtDegrees s.distances cutoff s.weights)) ⟨0, 0, []⟩).cluster] ++ tc,
        [(qtScan abort s.distances cutoff s.weights
          (qtDegrees s.distances cutoff s.weights)
          (argsortDesc (qtDegrees s.distances cutoff s.weights)) ⟨0, 0, []⟩).cluster_size] ++ tw,
        ?_, ?_⟩
      · rw [hc]; simp
      · rw [hw]; simp

/-- With `max_clusters = K ≥ 1`, `qtLoop` never accumulates more than `K`
clusters or `K` weights. -/
theorem qtLoop_cap (abort : Bool) (cutoff ms : ℚ) (K : ℕ) (hK : 1 ≤ K) :
    ∀ (fuel : ℕ) (s : QtState) (r : ClusteringResult),
      s.clusters.length < K → s.ww.length = s.clusters.length →
      s.ncluster = s.clusters.length →
      qtLoop abort cutoff ms (some K) fuel s = some r →
      r.clusters.length ≤ K ∧ r.weights.length ≤ K := by
  intro fuel
  induction fuel with
  | zero =>
    intro s r _ _ _ h
    exact absurd h (by simp [qtLoop])
  | succ fuel ih =>
    intro s r hlt hsync hnc hres
    simp only [qtLoop] at hres
    split_ifs at hres with h1 h2 h3
    · obtain rfl : (⟨"qt", s.clusters, s.ww⟩ : ClusteringResult) = r :=
        Option.some.inj hres
      exact ⟨le_of_lt hlt, le_of_lt (lt_of_eq_of_lt hsync hlt)⟩
    · obtain rfl : (⟨"qt", s.clusters, s.ww⟩ : ClusteringResult) = r :=
        Option.some.inj hres
      exact ⟨le_of_lt hlt, le_of_lt (lt_of_eq_of_lt hsync hlt)⟩
    · obtain rfl : (⟨"qt", s.clusters ++ [fancy s.indexes 0 (qtScan abort s.distances cutoff
          s.weights (qtDegrees s.distances cutoff s.weights)
          (argsortDesc (qtDegrees s.distances cutoff s.weights)) ⟨0, 0, []⟩).cluster],
          s.ww ++ [(qtScan abort s.distances cutoff s.weights
          (qtDegrees s.distances cutoff s.weights)
          (argsortDesc (qtDegrees s.distances cutoff s.weights)) ⟨0, 0, []⟩).cluster_size]⟩ :
          ClusteringResult) = r := Option.some.inj hres
      constructor
      · simp only [List.length_append, List.length_cons, List.length_nil]
        omega
      · simp only [List.length_append, List.length_cons, List.length_nil]
        omega
    · have hlt' : s.ncluster + 1 < K := by
        rcases Nat.lt_or_ge (s.ncluster + 1) K with h | h
        · exact h
        · exact absurd ((mcReached_some_iff K _).2 h) h3
      refine ih _ r ?_ ?_ ?_ hres
      · simp only [List.length_append, List.length_cons, List.length_nil]
        omega
      · simp [hsync]
      · simp only [List.length_append, List.length_cons, List.length_nil]
        omega

/-- With `max_clusters = K ≥ 1`, `qtLoop` returns exactly the first `K`
clusters (and weights) of the unconstrained run, whenever the latter
terminates on the same fuel. -/
theorem qtLoop_take (abort : Bool) (cutoff ms : ℚ) (K : ℕ) (hK : 1 ≤ K) :
    ∀ (fuel : ℕ) (s : QtState) (r : ClusteringResult),
      s.clusters.length < K → s.ww.length = s.clusters.length →
      s.ncluster = s.clusters.length →
      qtLoop abort cutoff ms none fuel s = some r →
      qtLoop abort cutoff ms (some K) fuel s =
        some ⟨"qt", r.clusters.take K, r.weights.take K⟩ := by
  intro fuel
  induction fuel with
  | zero =>
    intro s r _ _ _ h
    exact absurd h (by simp [qtLoop])
  | succ fuel ih =>
    intro s r hlt hsync hnc hres
    simp only [qtLoop, show ∀ k, mcReached none k = false from fun k => rfl,
      Bool.false_eq_true, if_false] at hres
    simp only [qtLoop]
    split_ifs at hres ⊢ with h1 h2 h3
    · obtain rfl : (⟨"qt", s.clusters, s.ww⟩ : ClusteringResult) = r :=
        Option.some.inj hres
      have t1 : s.clusters.take K = s.clusters := List.take_of_length_le (le_of_lt hlt)
      have t2 : s.ww.take K = s.ww :=
        List.take_of_length_le (le_of_lt (lt_of_eq_of_lt hsync hlt))
      simp [t1, t2]
    · obtain rfl : (⟨"qt", s.clusters, s.ww⟩ : ClusteringResult) = r :=
        Option.some.inj hres
      have t1 : s.clusters.take K = s.clusters := List.take_of_length_le (le_of_lt hlt)
      have t2 : s.ww.take K = s.ww :=
        List.take_of_length_le (le_of_lt (lt_of_eq_of_lt hsync hlt))
      simp [t1, t2]
    · -- the limit is reached exactly now: the appended lists have length K
      have hge : K ≤ s.ncluster + 1 := (mcReached_some_iff K _).1 h3
      obtain ⟨tc, tw, hc, hw⟩ := qtLoop_extends abort cutoff ms none fuel _ r hres
      dsimp only at hc hw
      have hc' : r.clusters.take K = s.clusters ++ [fancy s.indexes 0
          (qtScan abort s.distances cutoff s.weights (qtDegrees s.distances cutoff s.weights)
          (argsortDesc (qtDegrees s.distances cutoff s.weights)) ⟨0, 0, []⟩).cluster] := by
        rw [hc]
        refine List.take_left' ?_
        simp only [List.length_append, List.length_cons, List.length_nil]
        omega
      have hw' : r.weights.take K = s.ww ++ [(qtScan abort s.distances cutoff s.weights
          (qtDegrees s.distances cutoff s.weights)
          (argsortDesc (qtDegrees s.distances cutoff s.weights)) ⟨0, 0, []⟩).cluster_size] := by
        rw [hw]
        refine List.take_left' ?_
        simp only [List.length_append, List.length_cons, List.length_nil]
        omega
      rw [hc', hw']
    · -- the limit is not yet reached: recurse with the grown accumulators
      have hlt' : s.ncluster + 1 < K := by
        rcases Nat.lt_or_ge (s.ncluster + 1) K with h | h
        · exact h
        · exact absurd ((mcReached_some_iff K _).2 h) h3
      refine ih _ r ?_ ?_ ?_ hres
      · simp only [List.length_append, List.length_cons, List.length_nil]
        omega
      · simp [hsync]
      · simp only [List.length_append, List.length_cons, List.length_nil]
        omega

/-- Whatever `maxCliqueLoop` returns normally extends the accumulated
cliques and weights it starts from. -/
theorem maxCliqueLoop_extends (adj : Mat) (weights : Option (List ℚ)) (ms : ℚ)
    (mc : Option ℕ) :
    ∀ (fuel : ℕ) (nodes : List ℕ) (cliques : List (List ℕ)) (ww : List ℚ)
      (r : ClusteringResult),
      maxCliqueLoop adj weights ms mc fuel nodes cliques ww = some (.ok r) →
      ∃ tc tw, r.clusters = cliques ++ tc ∧ r.weights = ww ++ tw := by
  intro fuel
  induction fuel with
  | zero =>
    intro nodes cliques ww r h
    exact absurd h (by simp [maxCliqueLoop])
  | succ fuel ih =>
    intro nodes cliques ww r hres
    simp only [maxCliqueLoop] at hres
    split_ifs at hres with h1 h2
    · obtain rfl : (⟨"max_clique", cliques, ww⟩ : ClusteringResult) = r :=
        Except.ok.inj (Option.some.inj hres)
      exact ⟨[], [], by simp, by simp⟩
    · obtain rfl : (⟨"max_clique", cliques, ww⟩ : ClusteringResult) = r :=
        Except.ok.inj (Option.some.inj hres)
      exact ⟨[], [], by simp, by simp⟩
    · cases hbm : ((find_cliques adj nodes).foldl
          (fun (st : ℚ × Option (List ℕ)) c =>
            if cliqueW weights c > st.1 then (cliqueW weights c, some c) else st)
          (0, none)).2 with
      | none =>
        rw [hbm] at hres
        dsimp only at hres
        simp at hres
      | some maxi =>
        rw [hbm] at hres
        dsimp only at hres
        split_ifs at hres with h3
        · obtain rfl : (⟨"max_clique", cliques ++ [maxi],
              ww ++ [((find_cliques adj nodes).foldl
              (fun (st : ℚ × Option (List ℕ)) c =>
                if cliqueW weights c > st.1 then (cliqueW weights c, some c) else st)
              (0, none)).1]⟩ : ClusteringResult) = r :=
            Except.ok.inj (Option.some.inj hres)
          exact ⟨_, _, rfl, rfl⟩
        · obtain ⟨tc, tw, hc, hw⟩ := ih _ _ _ r hres
          refine ⟨[maxi] ++ tc, [((find_cliques adj nodes).foldl
              (fun (st : ℚ × Option (List ℕ)) c =>
                if cliqueW weights c > st.1 then (cliqueW weights c, some c) else st)
              (0, none)).1] ++ tw, ?_, ?_⟩
          · rw [hc]; simp
          · rw [hw]; simp

/-- With `max_clusters = K ≥ 1`, `maxCliqueLoop` never accumulates more than
`K` cliques or `K` weights. -/
theorem maxCliqueLoop_cap (adj : Mat) (weights : Option (List ℚ)) (ms : ℚ)
    (K : ℕ) (hK : 1 ≤ K) :
    ∀ (fuel : ℕ) (nodes : List ℕ) (cliques : List (List ℕ)) (ww : List ℚ)
      (r : ClusteringResult),
      cliques.length < K → ww.length = cliques.length →
      maxCliqueLoop adj weights ms (some K) fuel nodes cliques ww = some (.ok r) →
      r.clusters.length ≤ K ∧ r.weights.length ≤ K := by
  intro fuel
  induction fuel with
  | zero =>
    intro nodes cliques ww r _ _ h
    exact absurd h (by simp [maxCliqueLoop])
  | succ fuel ih =>
    intro nodes cliques ww r hlt hsync hres
    simp only [maxCliqueLoop] at hres
    split_ifs at hres with h1 h2
    · obtain rfl : (⟨"max_clique", cliques, ww⟩ : ClusteringResult) = r :=
        Except.ok.inj (Option.some.inj hres)
      exact ⟨le_of_lt hlt, le_of_lt (lt_of_eq_of_lt hsync hlt)⟩
    · obtain rfl : (⟨"max_clique", cliques, ww⟩ : ClusteringResult) = r :=
        Except.ok.inj (Option.some.inj hres)
      exact ⟨le_of_lt hlt, le_of_lt (lt_of_eq_of_lt hsync hlt)⟩
    · cases hbm : ((find_cliques adj nodes).foldl
          (fun (st : ℚ × Option (List ℕ)) c =>
            if cliqueW weights c > st.1 then (cliqueW weights c, some c) else st)
          (0, none)).2 with
      | none =>
        rw [hbm] at hres
        dsimp only at hres
        simp at hres
      | some maxi =>
        rw [hbm] at hres
        dsimp only at hres
        split_ifs at hres with h3
        · obtain rfl : (⟨"max_clique", cliques ++ [maxi],
              ww ++ [((find_cliques adj nodes).foldl
              (fun (st : ℚ × Option (List ℕ)) c =>
                if cliqueW weights c > st.1 then (cliqueW weights c, some c) else st)
              (0, none)).1]⟩ : ClusteringResult) = r :=
            Except.ok.inj (Option.some.inj hres)
          constructor
          · simp only [List.length_append, List.length_cons, List.length_nil]
            omega
          · simp only [List.length_append, List.length_cons, List.length_nil]
            omega
        · have hlt' : (cliques ++ [maxi]).length < K := by
            rcases Nat.lt_or_ge (cliques ++ [maxi]).length K with h | h
            · exact h
            · exact absurd ((mcReached_some_iff K _).2 h) h3
          refine ih _ _ _ r hlt' ?_ hres
          simp only [List.length_append, List.length_cons, List.length_nil]
          omega

/-- With `max_clusters = K ≥ 1`, `maxCliqueLoop` returns exactly the first
`K` cliques (and weights) of the unconstrained run, whenever the latter
finishes normally on the same fuel. -/
theorem maxCliqueLoop_take (adj : Mat) (weights : Option (List ℚ)) (ms : ℚ)
    (K : ℕ) (hK : 1 ≤ K) :
    ∀ (fuel : ℕ) (nodes : List ℕ) (cliques : List (List ℕ)) (ww : List ℚ)
      (r : ClusteringResult),
      cliques.length < K → ww.length = cliques.length →
      maxCliqueLoop adj weights ms none fuel nodes cliques ww = some (.ok r) →
      maxCliqueLoop adj weights ms (some K) fuel nodes cliques ww =
        some (.ok ⟨"max_clique", r.clusters.take K, r.weights.take K⟩) := by
  intro fuel
  induction fuel with
  | zero =>
    intro nodes cliques ww r _ _ h
    exact absurd h (by simp [maxCliqueLoop])
  | succ fuel ih =>
    intro nodes cliques ww r hlt hsync hres
    simp only [maxCliqueLoop, show ∀ k, mcReached none k = false from fun k => rfl,
      Bool.false_eq_true, if_false] at hres
    simp only [maxCliqueLoop]
    split_ifs at hres ⊢ with h1 h2
    · obtain rfl : (⟨"max_clique", cliques, ww⟩ : ClusteringResult) = r :=
        Except.ok.inj (Option.some.inj hres)
      have t1 : cliques.take K = cliques := List.take_of_length_le (le_of_lt hlt)
      have t2 : ww.take K = ww :=
        List.take_of_length_le (le_of_lt (lt_of_eq_of_lt hsync hlt))
      simp [t1, t2]
    · obtain rfl : (⟨"max_clique", cliques, ww⟩ : ClusteringResult) = r :=
        Except.ok.inj (Option.some.inj hres)
      have t1 : cliques.take K = cliques := List.take_of_length_le (le_of_lt hlt)
      have t2 : ww.take K = ww :=
        List.take_of_length_le (le_of_lt (lt_of_eq_of_lt hsync hlt))
      simp [t1, t2]
    · cases hbm : ((find_cliques adj nodes).foldl
          (fun (st : ℚ × Option (List ℕ)) c =>
            if cliqueW weights c > st.1 then (cliqueW weights c, some c) else st)
          (0, none)).2 with
      | none =>
        rw [hbm] at hres
        dsimp only at hres
        simp at hres
      | some maxi =>
        rw [hbm] at hres
        dsimp only at hres ⊢
        split_ifs with h3
        · -- the limit is reached exactly now: the appended lists have length K
          have hge : K ≤ (cliques ++ [maxi]).length := (mcReached_some_iff K _).1 h3
          obtain ⟨tc, tw, hc, hw⟩ :=
            maxCliqueLoop_extends adj weights ms none fuel _ _ _ r hres
          have hc' : r.clusters.take K = cliques ++ [maxi] := by
            rw [hc]
            refine List.take_left' ?_
            simp only [List.length_append, List.length_cons, List.length_nil] at hge ⊢
            omega
          have hw' : r.weights.take K = ww ++ [((find_cliques adj nodes).foldl
              (fun (st : ℚ × Option (List ℕ)) c =>
                if cliqueW weights c > st.1 then (cliqueW weights c, some c) else st)
              (0, none)).1] := by
            rw [hw]
            refine List.take_left' ?_
            simp only [List.length_append, List.length_cons, List.length_nil] at hge ⊢
            omega
          rw [hc', hw']
        · -- the limit is not yet reached: recurse with the grown accumulators
          have hlt' : (cliques ++ [maxi]).length < K := by
            rcases Nat.lt_or_ge (cliques ++ [maxi]).length K with h | h
            · exact h
            · exact absurd ((mcReached_some_iff K _).2 h) h3
          refine ih _ _ _ r hlt' ?_ hres
          simp only [List.length_append, List.length_cons, List.length_nil]
          omega

/-- C3 (amended): the `max_clusters` limit as implemented.  `K = 0` does not
give an empty cluster list: `daura` (python `if max_clusters:`) ignores the
limit entirely and behaves as `max_clusters = None`, while `qt` and
`max_clique` (python `if max_clusters is not None:` checked only after a
cluster is appended) behave as `max_clusters = 1`.  For `K ≥ 1` the claim
holds: every strategy returns at most `K` clusters and weights, and whenever
the unconstrained run terminates on the same fuel, the constrained run
returns exactly its first `K` clusters and weights, in order. -/
theorem claim_C3 :
    (∀ (adj : Mat) (w : Option (List ℚ)) (ms : ℚ) (fuel : ℕ),
      daura adj w ms (some 0) fuel = daura adj w ms none fuel) ∧
    (∀ (d : Mat) (c : ℚ) (w : Option (List ℚ)) (ms : ℚ) (fuel : ℕ),
      qt d c w ms (some 0) fuel = qt d c w ms (some 1) fuel) ∧
    (∀ (adj : Mat) (w : Option (List ℚ)) (ms : ℚ) (fuel : ℕ),
      max_clique adj w ms (some 0) fuel = max_clique adj w ms (some 1) fuel) ∧
    ∀ K : ℕ, 1 ≤ K →
      (∀ (adj : Mat) (w : Option (List ℚ)) (ms : ℚ) (fuel : ℕ) (r : ClusteringResult),
          daura adj w ms (some K) fuel = some r →
          r.clusters.length ≤ K ∧ r.weights.length ≤ K) ∧
      (∀ (adj : Mat) (w : Option (List ℚ)) (ms : ℚ) (fuel : ℕ) (r : ClusteringResult),
          daura adj w ms none fuel = some r →
          daura adj w ms (some K) fuel =
            some ⟨"daura", r.clusters.take K, r.weights.take K⟩) ∧
      (∀ (d : Mat) (c : ℚ) (w : Option (List ℚ)) (ms : ℚ) (fuel : ℕ) (r : ClusteringResult),
          qt d c w ms (some K) fuel = some r →
          r.clusters.length ≤ K ∧ r.weights.length ≤ K) ∧
      (∀ (d : Mat) (c : ℚ) (w : Option (List ℚ)) (ms : ℚ) (fuel : ℕ) (r : ClusteringResult),
          qt d c w ms none fuel = some r →
          qt d c w ms (some K) fuel = some ⟨"qt", r.clusters.take K, r.weights.take K⟩) ∧
      (∀ (adj : Mat) (w : Option (List ℚ)) (ms : ℚ) (fuel : ℕ) (r : ClusteringResult),
          max_clique adj w ms (some K) fuel = some (.ok r) →
          r.clusters.length ≤ K ∧ r.weights.length ≤ K) ∧
      (∀ (adj : Mat) (w : Option (List ℚ)) (ms : ℚ) (fuel : ℕ) (r : ClusteringResult),
          max_clique adj w ms none fuel = some (.ok r) →
          max_clique adj w ms (some K) fuel =
            some (.ok ⟨"max_clique", r.clusters.take K, r.weights.take K⟩)) := by
  refine ⟨?_, ?_, ?_, ?_⟩
  · intro adj w ms fuel
    exact dauraLoop_mc_zero ms fuel _
  · intro d c w ms fuel
    exact qtLoop_mc_zero_one true c ms fuel _
  · intro adj w ms fuel
    simp only [max_clique]
    split_ifs with hs
    · exact maxCliqueLoop_mc_zero_one adj w ms fuel _ _ _
    · rfl
  · intro K hK
    refine ⟨?_, ?_, ?_, ?_, ?_, ?_⟩
    · intro adj w ms fuel r h
      exact dauraLoop_cap ms K hK fuel _ r (by simpa using hK) rfl h
    · intro adj w ms fuel r h
      exact dauraLoop_take ms K hK fuel _ r (by simpa using hK) rfl h
    · intro d c w ms fuel r h
      exact qtLoop_cap true c ms K hK fuel _ r (by simpa using hK) rfl rfl h
    · intro d c w ms fuel r h
      exact qtLoop_take true c ms K hK fuel _ r (by simpa using hK) rfl rfl h
    · intro adj w ms fuel r h
      simp only [max_clique] at h
      split_ifs at h with hs
      · exact maxCliqueLoop_cap adj w ms K hK fuel _ _ _ r (by simpa using hK) rfl h
      · exact Except.noConfusion (Option.some.inj h)
    · intro adj w ms fuel r h
      simp only [max_clique] at h ⊢
      split_ifs at h ⊢ with hs
      · exact maxCliqueLoop_take adj w ms K hK fuel _ _ _ r (by simpa using hK) rfl h
      · exact Except.noConfusion (Option.some.inj h)

theorem claim_C3_witness :
    daura [[0, 1], [1, 0]] none 1 (some 0) 2 = daura [[0, 1], [1, 0]] none 1 none 2 ∧
    qt [[0, 1], [1, 0]] (mkRat 1 2) none 0 (some 0) 3 =
      qt [[0, 1], [1, 0]] (mkRat 1 2) none 0 (some 1) 3 ∧
    max_clique [[0, 1], [1, 0]] none 0 (some 0) 3 =
      max_clique [[0, 1], [1, 0]] none 0 (some 1) 3 ∧
    (1 : ℕ) ≤ 1 ∧
    daura [[0, 1], [1, 0]] none 1 none 2 = some ⟨"daura", [[1]], [1]⟩ ∧
    daura [[0, 1], [1, 0]] none 1 (some 1) 2 =
      some ⟨"daura", ([[1]] : List (List ℕ)).take 1, ([1] : List ℚ).take 1⟩ := by
  have h := claim_C3
  refine ⟨h.1 [[0, 1], [1, 0]] none 1 2, h.2.1 [[0, 1], [1, 0]] (mkRat 1 2) none 0 3,
    h.2.2.1 [[0, 1], [1, 0]] none 0 3, le_refl 1, by decide, ?_⟩
  exact (h.2.2.2 1 (le_refl 1)).2.1 [[0, 1], [1, 0]] none 1 2 ⟨"daura", [[1]], [1]⟩ (by decide)

/-! ### Early-abort equivalence toolkit (C8) -/

/-- Members of a growth in progress come from the accumulated precluster or
from the candidate list. -/
theorem qtGrowFuel_subset (D : Mat) (cutoff : ℚ) (w : List ℚ) (cand : List ℕ) :
    ∀ (fuel : ℕ) (dfc : List (WithTop ℚ)) (pc : List ℕ) (diam : WithTop ℚ),
      cand.length = dfc.length →
      ∀ p ∈ (qtGrowFuel D cutoff w cand fuel dfc pc diam).1, p ∈ pc ∨ p ∈ cand := by
  intro fuel
  induction fuel with
  | zero =>
    intro dfc pc diam _ p hp
    exact Or.inl hp
  | succ fuel ih =>
    intro dfc pc diam hclen p hp
    by_cases hn : (_qt_inner D dfc cand cutoff w).next < 0
    · rw [qtGrowFuel, if_pos hn] at hp
      exact Or.inl hp
    · have hnext := Int.not_lt.1 hn
      obtain ⟨k, hklt, hkval, hkcand, hrlen, hktop, hupd, hmv⟩ :=
        qt_inner_step D dfc cand cutoff w hnext
      rw [qtGrowFuel, if_neg hn] at hp
      rcases ih (_qt_inner D dfc cand cutoff w).dfc
        (pc ++ [(_qt_inner D dfc cand cutoff w).next.toNat]) _ (by rw [hclen, hrlen]) p hp
        with hm | hm
      · rcases List.mem_append.1 hm with hm | hm
        · exact Or.inl hm
        · rw [List.mem_singleton] at hm
          right
          rw [hm, ← hkcand]
          have hkc : k < cand.length := by rw [hclen]; exact hklt
          rw [getD_eq_getElem _ _ hkc]
          exact List.getElem_mem _
      · exact Or.inr hm

/-- A grown cluster consists of its seed plus candidates of the seed. -/
theorem qtGrow_subset (D : Mat) (cutoff : ℚ) (w : List ℚ) (sd : ℕ) :
    ∀ p ∈ (qtGrow D cutoff w sd).1, p = sd ∨ p ∈ _qt_outer D sd cutoff := by
  intro p hp
  rw [qtGrow] at hp
  rcases qtGrowFuel_subset D cutoff w (_qt_outer D sd cutoff) _ _ _ _
    (by rw [List.length_map]) p hp with hm | hm
  · rw [List.mem_singleton] at hm
    exact Or.inl hm
  · exact Or.inr hm

/-- Inserting into a descending-keys list keeps it descending. -/
theorem insertDesc_pairwise (key : ℕ → ℚ) (i : ℕ) :
    ∀ l : List ℕ, l.Pairwise (fun a b => key b ≤ key a) →
      (insertDesc key i l).Pairwise (fun a b => key b ≤ key a) := by
  intro l
  induction l with
  | nil =>
    intro _
    exact List.pairwise_singleton _ _
  | cons j rest ih =>
    intro hp
    rw [insertDesc]
    by_cases hc : key j < key i
    · rw [if_pos hc]
      refine List.Pairwise.cons ?_ hp
      intro x hx
      rcases List.mem_cons.1 hx with rfl | hx'
      · exact le_of_lt hc
      · exact le_trans ((List.pairwise_cons.1 hp).1 x hx') (le_of_lt hc)
    · rw [if_neg hc]
      refine List.Pairwise.cons ?_ (ih (List.pairwise_cons.1 hp).2)
      intro x hx
      rcases mem_insertDesc.1 hx with rfl | hx'
      · exact le_of_not_lt hc
      · exact (List.pairwise_cons.1 hp).1 x hx'

/-- The argsort of the degree vector is descending in degrees. -/
theorem argsortDesc_pairwise (d : List ℚ) :
    (argsortDesc d).Pairwise (fun a b => getQ d b ≤ getQ d a) := by
  rw [argsortDesc]
  refine @List.foldlRecOn (List ℕ) ℕ (fun acc => acc.Pairwise (fun a b => getQ d b ≤ getQ d a))
    (List.range d.length) _ [] List.Pairwise.nil ?_
  intro acc hacc i _
  exact insertDesc_pairwise (getQ d) i acc hacc

/-- A sum of nonnegative values over distinct positions satisfying a mask is
at most the masked sum over the whole range. -/
theorem qSum_nodup_le_masked (N : ℕ) (f : ℕ → ℚ) (mask : ℕ → Prop) [DecidablePred mask]
    (hf : ∀ i, i < N → 0 ≤ f i) :
    ∀ l : List ℕ, l.Nodup → (∀ p ∈ l, p < N ∧ mask p) →
      qSum (l.map f) ≤ qSum ((List.range N).map (fun i => if mask i then f i else 0)) := by
  intro l hnd hmem
  rw [qSum_eq_sum, qSum_eq_sum]
  rw [← List.sum_toFinset f hnd, ← List.sum_toFinset _ (List.nodup_range N)]
  have hcong : l.toFinset.sum f = l.toFinset.sum (fun i => if mask i then f i else 0) := by
    refine Finset.sum_congr rfl ?_
    intro p hp
    rw [List.mem_toFinset] at hp
    rw [if_pos (hmem p hp).2]
  rw [hcong]
  refine Finset.sum_le_sum_of_subset_of_nonneg ?_ ?_
  · intro p hp
    rw [List.mem_toFinset] at hp
    rw [List.mem_toFinset, List.mem_range]
    exact (hmem p hp).1
  · intro i hi _
    rw [List.mem_toFinset, List.mem_range] at hi
    by_cases hm : mask i
    · rw [if_pos hm]
      exact hf i hi
    · rw [if_neg hm]

/-- With a symmetric matrix, a zero diagonal, nonnegative weights and a
positive cutoff, the weight of the cluster grown from a seed is at most the
seed's weighted degree: every member is within the cutoff of the seed. -/
theorem qtGrow_weight_le_degree (D : Mat) (cutoff : ℚ) (w : List ℚ)
    (hsym : ∀ i j, i < D.length → j < D.length → ent D i j = ent D j i)
    (hdiag : ∀ i, i < D.length → ent D i i = 0)
    (hw : ∀ i, 0 ≤ getQ w i) (hcut : 0 < cutoff) {sd : ℕ} (hsd : sd < D.length) :
    qSum ((qtGrow D cutoff w sd).1.map (fun p => getQ w p)) ≤
      getQ (qtDegrees D cutoff w) sd := by
  have hdeg : getQ (qtDegrees D cutoff w) sd =
      qSum ((List.range D.length).map (fun i =>
        if ent D i sd < cutoff then getQ w i else 0)) := by
    rw [qtDegrees]
    exact getQ_map_range hsd
  rw [hdeg]
  refine qSum_nodup_le_masked D.length (fun p => getQ w p) (fun i => ent D i sd < cutoff)
    (fun i _ => hw i) _ (qtGrow_members D cutoff w hsd).1 ?_
  intro p hp
  rcases qtGrow_subset D cutoff w sd p hp with rfl | hm
  · refine ⟨hsd, ?_⟩
    show ent D p p < cutoff
    rw [hdiag p hsd]
    exact hcut
  · have h3 := (mem_qt_outer hsd).1 hm
    refine ⟨h3.1, ?_⟩
    show ent D p sd < cutoff
    rw [hsym p sd h3.1 hsd]
    exact h3.2.2

/-- When every remaining seed's cluster weight stays strictly below the best
cluster weight, the rest of the scan never changes the best cluster. -/
theorem qtScan_no_update (D : Mat) (cutoff : ℚ) (w : List ℚ) (degrees : List ℚ) :
    ∀ (seeds : List ℕ) (best : BestSt),
      (∀ sd ∈ seeds, qSum ((qtGrow D cutoff w sd).1.map (fun p => getQ w p)) <
        best.cluster_size) →
      qtScan false D cutoff w degrees seeds best = best := by
  intro seeds
  induction seeds with
  | nil =>
    intro best _
    rfl
  | cons sd rest ih =>
    intro best hb
    rw [qtScan]
    rw [if_neg (show ¬(false = true ∧ getQ degrees sd < best.cluster_size) by simp)]
    dsimp only
    have hlt := hb sd (List.mem_cons_self _ _)
    have hno : ¬(qSum ((qtGrow D cutoff w sd).1.map (fun p => getQ w p)) >
        best.cluster_size ∨
        (qSum ((qtGrow D cutoff w sd).1.map (fun p => getQ w p)) = best.cluster_size ∧
         (qtGrow D cutoff w sd).2.1 < best.diameter)) := by
      rintro (h | ⟨h, _⟩)
      · exact lt_irrefl _ (lt_trans h hlt)
      · rw [h] at hlt
        exact lt_irrefl _ hlt
    rw [if_neg hno]
    exact ih best (fun t ht => hb t (List.mem_cons_of_mem _ ht))

/-- On a descending-degree seed list where every seed's cluster weight is
bounded by its degree, the early-abort scan equals the full scan. -/
theorem qtScan_abort_eq (D : Mat) (cutoff : ℚ) (w : List ℚ) (degrees : List ℚ) :
    ∀ (seeds : List ℕ) (best : BestSt),
      seeds.Pairwise (fun a b => getQ degrees b ≤ getQ degrees a) →
      (∀ sd ∈ seeds, qSum ((qtGrow D cutoff w sd).1.map (fun p => getQ w p)) ≤
        getQ degrees sd) →
      qtScan true D cutoff w degrees seeds best =
        qtScan false D cutoff w degrees seeds best := by
  intro seeds
  induction seeds with
  | nil =>
    intro best _ _
    rfl
  | cons sd rest ih =>
    intro best hp hbd
    rw [qtScan, qtScan]
    by_cases hab : getQ degrees sd < best.cluster_size
    · rw [if_pos ⟨rfl, hab⟩,
        if_neg (show ¬(false = true ∧ getQ degrees sd < best.cluster_size) by simp)]
      dsimp only
      have hlt : qSum ((qtGrow D cutoff w sd).1.map (fun p => getQ w p)) <
          best.cluster_size :=
        lt_of_le_of_lt (hbd sd (List.mem_cons_self _ _)) hab
      have hno : ¬(qSum ((qtGrow D cutoff w sd).1.map (fun p => getQ w p)) >
          best.cluster_size ∨
          (qSum ((qtGrow D cutoff w sd).1.map (fun p => getQ w p)) = best.cluster_size ∧
           (qtGrow D cutoff w sd).2.1 < best.diameter)) := by
        rintro (h | ⟨h, _⟩)
        · exact lt_irrefl _ (lt_trans h hlt)
        · rw [h] at hlt
          exact lt_irrefl _ hlt
      rw [if_neg hno]
      refine (qtScan_no_update D cutoff w degrees rest best ?_).symm
      intro t ht
      have hdt : getQ degrees t ≤ getQ degrees sd := (List.pairwise_cons.1 hp).1 t ht
      exact lt_of_le_of_lt (le_trans (hbd t (List.mem_cons_of_mem _ ht)) hdt) hab
    · rw [if_neg (show ¬(true = true ∧ getQ degrees sd < best.cluster_size) by simp [hab]),
        if_neg (show ¬(false = true ∧ getQ degrees sd < best.cluster_size) by simp)]
      dsimp only
      exact ih _ (List.pairwise_cons.1 hp).2
        (fun t ht => hbd t (List.mem_cons_of_mem _ ht))

/-- `np.ix_` submatrix selection keeps one row per selected index. -/
theorem subMatrix_length (m : Mat) (idx : List ℕ) :
    (subMatrix m idx).length = idx.length := by
  simp [subMatrix]

/-- Entry of the `np.ix_` submatrix in terms of the original matrix. -/
theorem ent_subMatrix (m : Mat) (idx : List ℕ) {a b : ℕ} (ha : a < idx.length)
    (hb : b < idx.length) :
    ent (subMatrix m idx) a b = ent m (idx.getD a 0) (idx.getD b 0) := by
  have hrow : getRow (subMatrix m idx) a = fancy (getRow m (idx.getD a 0)) 0 idx := by
    rw [getRow, subMatrix]
    have ha' : a < (idx.map (fun i => fancy (getRow m i) 0 idx)).length := by
      rw [List.length_map]
      exact ha
    rw [getD_eq_getElem _ _ ha', List.getElem_map, ← getD_eq_getElem _ 0 ha]
  rw [ent, hrow, getQ, fancy_getD _ _ _ hb]
  rfl

/-- Setting one position leaves the others unchanged, `getD` version. -/
theorem getD_set_ne {α : Type _} (l : List α) (i j : ℕ) (v d : α) (hne : i ≠ j) :
    (l.set i v).getD j d = l.getD j d := by
  rcases Nat.lt_or_ge j l.length with hj | hj
  · rw [List.getD_eq_getElem _ _ (by rw [List.length_set]; exact hj),
      List.getD_eq_getElem _ _ hj]
    exact List.getElem_set_ne hne _
  · rw [List.getD_eq_default _ _ (by rw [List.length_set]; exact hj),
      List.getD_eq_default _ _ hj]

/-- Row `i` of `np.fill_diagonal(m, v)`. -/
theorem getRow_fillDiagonal (m : Mat) (v : ℚ) {i : ℕ} (hi : i < m.length) :
    getRow (fillDiagonal m v) i = (getRow m i).set i v := by
  rw [getRow, fillDiagonal]
  have hi' : i < (m.enum.map (fun p => p.2.set p.1 v)).length := by
    rw [List.length_map, List.enum_length]
    exact hi
  rw [getD_eq_getElem _ _ hi', List.getElem_map, List.getElem_enum]
  rw [getRow, getD_eq_getElem _ _ hi]

/-- Off-diagonal entries survive `np.fill_diagonal`. -/
theorem ent_fillDiagonal_ne (m : Mat) (v : ℚ) {i j : ℕ} (hi : i < m.length)
    (hne : i ≠ j) : ent (fillDiagonal m v) i j = ent m i j := by
  rw [ent, getRow_fillDiagonal m v hi, getQ, getD_set_ne _ _ _ _ _ hne]
  rfl

/-- Diagonal entries become `v` under `np.fill_diagonal` (row long enough). -/
theorem ent_fillDiagonal_diag (m : Mat) (v : ℚ) {i : ℕ} (hi : i < m.length)
    (hrow : i < (getRow m i).length) : ent (fillDiagonal m v) i i = v := by
  rw [ent, getRow_fillDiagonal m v hi, getQ,
    List.getD_eq_getElem _ _ (by rw [List.length_set]; exact hrow)]
  exact List.getElem_set_self _

/-- The early-abort seed scan does not change the `qt` loop: on a symmetric
zero-diagonal matrix with nonnegative weights and a positive cutoff, a seed
degree below the best cluster weight proves all remaining seeds hopeless. -/
theorem qtLoop_abort_eq (cutoff ms : ℚ) (mc : Option ℕ) (hcut : 0 < cutoff) :
    ∀ (fuel : ℕ) (s : QtState),
      (∀ i j, i < s.distances.length → j < s.distances.length →
        ent s.distances i j = ent s.distances j i) →
      (∀ i, i < s.distances.length → ent s.distances i i = 0) →
      (∀ i, 0 ≤ getQ s.weights i) →
      s.weights.length = s.distances.length →
      qtLoop true cutoff ms mc fuel s = qtLoop false cutoff ms mc fuel s := by
  intro fuel
  induction fuel with
  | zero =>
    intro s _ _ _ _
    rfl
  | succ fuel ih =>
    intro s hsym hdiag hwn hlen
    have hbest : qtScan true s.distances cutoff s.weights
        (qtDegrees s.distances cutoff s.weights)
        (argsortDesc (qtDegrees s.distances cutoff s.weights)) ⟨0, 0, []⟩ =
        qtScan false s.distances cutoff s.weights
        (qtDegrees s.distances cutoff s.weights)
        (argsortDesc (qtDegrees s.distances cutoff s.weights)) ⟨0, 0, []⟩ := by
      refine qtScan_abort_eq _ _ _ _ _ _ (argsortDesc_pairwise _) ?_
      intro sd hsd
      have hsdlt : sd < s.distances.length := by
        have := mem_argsortDesc_lt _ sd hsd
        rwa [qtDegrees_length] at this
      exact qtGrow_weight_le_degree s.distances cutoff s.weights hsym hdiag hwn hcut hsdlt
    simp only [qtLoop]
    rw [hbest]
    split_ifs with h1 h2 h3
    · rfl
    · rfl
    · rfl
    · refine ih _ ?_ ?_ ?_ ?_
      · intro i j hi hj
        rw [subMatrix_length] at hi hj
        rw [ent_subMatrix _ _ hi hj, ent_subMatrix _ _ hj hi]
        exact hsym _ _ (survivors_getD_lt hi) (survivors_getD_lt hj)
      · intro i hi
        rw [subMatrix_length] at hi
        rw [ent_subMatrix _ _ hi hi]
        exact hdiag _ (survivors_getD_lt hi)
      · intro i
        by_cases hi : i < ((List.range s.distances.length).filter
            (fun i => !((qtScan false s.distances cutoff s.weights
              (qtDegrees s.distances cutoff s.weights)
              (argsortDesc (qtDegrees s.distances cutoff s.weights))
              ⟨0, 0, []⟩).cluster.contains i))).length
        · show 0 ≤ getQ (fancy s.weights 0 _) i
          rw [getQ, fancy_getD _ _ _ hi]
          exact hwn _
        · show 0 ≤ getQ (fancy s.weights 0 _) i
          rw [getQ, List.getD_eq_default]
          rw [fancy, List.length_map]
          omega
      · show (fancy s.weights 0 _).length = (subMatrix s.distances _).length
        rw [subMatrix_length, fancy, List.length_map]

/-- C8 (amended): on well-formed input — square symmetric distance matrix,
nonnegative weights of matching length, and a POSITIVE cutoff — the early
abort of the seed scan is a pure optimization: `qt` returns the same result
as the variant growing a candidate cluster from every eligible seed.  (With
`cutoff ≤ 0` the abort is unsound, because a seed's degree no longer counts
the seed's own weight, so it can underestimate its cluster weight.) -/
theorem claim_C8 (distances : Mat) (cutoff : ℚ) (weights : Option (List ℚ))
    (ms : ℚ) (mc : Option ℕ) (fuel : ℕ)
    (hsq : isSquare distances = true) (hsym : isSymm distances = true)
    (hwn : wNonneg weights = true)
    (hwl : ∀ wv, weights = some wv → wv.length = distances.length)
    (hcut : 0 < cutoff) :
    qt distances cutoff weights ms mc fuel =
      qtEverySeed distances cutoff weights ms mc fuel := by
  have hsymP : ∀ i j, i < distances.length → j < distances.length →
      ent distances i j = ent distances j i := by
    intro i j hi hj
    exact decide_eq_true_iff.1 ((List.all_eq_true.1
      ((List.all_eq_true.1 hsym) i (List.mem_range.2 hi))) j (List.mem_range.2 hj))
  have hsymF : ∀ i j, i < (fillDiagonal distances 0).length →
      j < (fillDiagonal distances 0).length →
      ent (fillDiagonal distances 0) i j = ent (fillDiagonal distances 0) j i := by
    intro i j hi hj
    rw [fillDiagonal_length] at hi hj
    by_cases hij : i = j
    · subst hij
      rfl
    · rw [ent_fillDiagonal_ne _ _ hi hij, ent_fillDiagonal_ne _ _ hj (Ne.symm hij)]
      exact hsymP i j hi hj
  have hdiagF : ∀ i, i < (fillDiagonal distances 0).length →
      ent (fillDiagonal distances 0) i i = 0 := by
    intro i hi
    rw [fillDiagonal_length] at hi
    exact ent_fillDiagonal_diag _ _ hi (by rw [isSquare_row_length hsq hi]; exact hi)
  cases weights with
  | none =>
    have hwnP : ∀ i, 0 ≤ getQ (List.replicate distances.length (1 : ℚ)) i := by
      intro i
      rcases Nat.lt_or_ge i distances.length with hi | hi
      · rw [getQ, List.getD_eq_getElem _ _ (by rw [List.length_replicate]; exact hi),
          List.getElem_replicate]
        exact zero_le_one
      · rw [getQ, List.getD_eq_default _ _ (by rw [List.length_replicate]; exact hi)]
    exact qtLoop_abort_eq cutoff ms mc hcut fuel
      ⟨fillDiagonal distances 0, List.replicate distances.length 1,
       List.range distances.length, [], [], 0⟩ hsymF hdiagF hwnP
      (by rw [fillDiagonal_length, List.length_replicate])
  | some wv =>
    have hwnP : ∀ i, 0 ≤ getQ wv i := by
      intro i
      rcases Nat.lt_or_ge i wv.length with hi | hi
      · rw [getQ, List.getD_eq_getElem _ _ hi]
        have hb := (List.all_eq_true.1 hwn) wv[i] (List.getElem_mem _)
        exact decide_eq_true_iff.1 hb
      · rw [getQ, List.getD_eq_default _ _ hi]
    exact qtLoop_abort_eq cutoff ms mc hcut fuel
      ⟨fillDiagonal distances 0, wv, List.range distances.length, [], [], 0⟩
      hsymF hdiagF hwnP (by rw [fillDiagonal_length]; exact hwl wv rfl)

theorem claim_C8_witness :
    isSquare [[0, 1], [1, 0]] = true ∧ isSymm [[0, 1], [1, 0]] = true ∧
    wNonneg none = true ∧ (0 : ℚ) < 1 ∧
    qt [[0, 1], [1, 0]] 1 none 0 none 3 = qtEverySeed [[0, 1], [1, 0]] 1 none 0 none 3 := by
  refine ⟨by decide, by decide, by decide, by decide, ?_⟩
  exact claim_C8 [[0, 1], [1, 0]] 1 none 0 none 3 (by decide) (by decide) (by decide)
    (fun wv h => nomatch h) (by decide)
